import Mathlib

set_option maxRecDepth 100000

/-!
Verification of the md2-bevy repository: a shallow embedding of the MD2
model decoder (src/md2.rs), the PCX image decoder (src/pcx.rs) and the
animation player (src/md2.rs, MD2Component), with theorems settling the
frozen claims about them.

Modelling conventions:
* A byte buffer is a `List Nat` of byte values.
* Fallible Rust code is modelled by `MResult`: `ok` for `Ok`, `fmtErr`
  for the `InvalidFormat` error carrying its message, and `panicked` for
  a Rust panic (out-of-bounds slice or index, `%` by zero, integer
  overflow under checked arithmetic, `unwrap` of `None`).
* `f32` values are idealised as exact rationals (`ℚ`): byte decoding of
  f32 fields follows the IEEE-754 single format bit layout exactly for
  finite values (infinities and NaNs, which have no rational value, are
  mapped to 0), and float arithmetic is modelled as exact rational
  arithmetic.  All claims settled below depend only on branch structure
  or on arithmetic identities that hold in both semantics.
* Rust `String`s produced by `String::from_utf8_lossy` on name fields
  are modelled as the raw byte lists; for valid UTF-8 (in particular
  ASCII) names the byte-level operations coincide exactly with the
  string-level ones in the source.
* Filesystem concerns (`fs::read`, `find_skins`, asset handles) are
  outside the decoders' byte-level contracts and are omitted: `MD2.load`
  here takes the already-read byte buffer, and the decoded model carries
  the animation and texcoord data the claims are about.
-/

/-- Outcome of a fallible Rust computation: `Ok`, `Err(InvalidFormat msg)`,
or a panic. -/
inductive MResult (α : Type) where
  | ok : α → MResult α
  | fmtErr : String → MResult α
  | panicked : MResult α
deriving DecidableEq

def MResult.bind {α β : Type} : MResult α → (α → MResult β) → MResult β
  | .ok a, f => f a
  | .fmtErr s, _ => .fmtErr s
  | .panicked, _ => .panicked

instance : Monad MResult where
  pure := MResult.ok
  bind := MResult.bind

/-- Byte access `data[i]`; all uses below are bounds-guarded as the source is. -/
def byteAt (data : List Nat) (i : Nat) : Nat := data.getD i 0

/-- Little-endian `u16` at offset `i` (`u16::from_le_bytes`). -/
def readU16 (data : List Nat) (i : Nat) : Nat :=
  byteAt data i + 256 * byteAt data (i + 1)

/-- Little-endian `i16` at offset `i` (`i16::from_le_bytes`). -/
def readI16 (data : List Nat) (i : Nat) : Int :=
  let n := readU16 data i
  if n < 32768 then (n : Int) else (n : Int) - 65536

/-- Little-endian `u32` at offset `i`. -/
def readU32 (data : List Nat) (i : Nat) : Nat :=
  byteAt data i + 256 * byteAt data (i + 1) + 65536 * byteAt data (i + 2) +
    16777216 * byteAt data (i + 3)

/-- Little-endian `i32` at offset `i` (`i32::from_le_bytes`). -/
def readI32 (data : List Nat) (i : Nat) : Int :=
  let n := readU32 data i
  if n < 2147483648 then (n : Int) else (n : Int) - 4294967296

/-- Little-endian `f32` at offset `i` (`f32::from_le_bytes`), idealised as an
exact rational: sign, 8-bit exponent, 23-bit fraction per IEEE-754 single
precision; exponent 255 (infinities/NaNs, which have no rational value) is
mapped to 0. -/
def decodeF32 (data : List Nat) (i : Nat) : ℚ :=
  let bits := readU32 data i
  let sgn := bits / 2147483648
  let e := bits / 8388608 % 256
  let f := bits % 8388608
  let mag : ℚ :=
    if e = 255 then 0
    else if e = 0 then (f : ℚ) * (2 : ℚ) ^ (-149 : ℤ)
    else ((8388608 + f : Nat) : ℚ) * (2 : ℚ) ^ ((e : ℤ) - 150)
  if sgn = 1 then -mag else mag

/-- `bevy::Vec2` with rational components. -/
structure V2 where
  x : ℚ
  y : ℚ
deriving DecidableEq

/-- `bevy::Vec3` with rational components. -/
structure V3 where
  x : ℚ
  y : ℚ
  z : ℚ
deriving DecidableEq

/-- `glam`'s `Vec3::lerp`: `self + (rhs - self) * s`, componentwise. -/
def V3.lerp (a b : V3) (t : ℚ) : V3 :=
  ⟨a.x + (b.x - a.x) * t, a.y + (b.y - a.y) * t, a.z + (b.z - a.z) * t⟩

/-- MD2 file header (`md2.rs::Header`), 17 little-endian `i32` fields. -/
structure Header where
  ident : Int
  version : Int
  skinwidth : Int
  skinheight : Int
  framesize : Int
  num_skins : Int
  num_xyz : Int
  num_st : Int
  num_tris : Int
  num_glcmds : Int
  num_frames : Int
  offset_skins : Int
  offset_st : Int
  offset_tris : Int
  offset_frames : Int
  offset_glcmd : Int
  offset_end : Int
deriving DecidableEq

/-- `Header::from_bytes`: requires 68 bytes, then reads the 17 fields. -/
def Header.from_bytes (data : List Nat) : MResult Header :=
  if data.length < 68 then .fmtErr "Not enough bytes for header"
  else .ok ⟨readI32 data 0, readI32 data 4, readI32 data 8, readI32 data 12,
    readI32 data 16, readI32 data 20, readI32 data 24, readI32 data 28,
    readI32 data 32, readI32 data 36, readI32 data 40, readI32 data 44,
    readI32 data 48, readI32 data 52, readI32 data 56, readI32 data 60,
    readI32 data 64⟩

/-- `md2.rs::TexCoord`: a signed 16-bit (s, t) pair. -/
structure TexCoord where
  s : Int
  t : Int
deriving DecidableEq

/-- `TexCoord::from_bytes`. -/
def TexCoord.from_bytes (data : List Nat) : MResult TexCoord :=
  if data.length < 4 then .fmtErr "Not enough bytes for texcoord"
  else .ok ⟨readI16 data 0, readI16 data 2⟩

/-- `md2.rs::Triangle`: three `u16` vertex indices and three `u16`
texcoord indices. -/
structure Triangle where
  vertex : List Nat
  st : List Nat
deriving DecidableEq

/-- `Triangle::from_bytes`. -/
def Triangle.from_bytes (data : List Nat) : MResult Triangle :=
  if data.length < 12 then .fmtErr "Not enough bytes for triangle"
  else .ok ⟨[readU16 data 0, readU16 data 2, readU16 data 4],
    [readU16 data 6, readU16 data 8, readU16 data 10]⟩

/-- `md2.rs::Vertex`: three byte coordinates plus a normal-index byte. -/
structure Vertex where
  v : List Nat
  normal_index : Nat
deriving DecidableEq

/-- `Vertex::from_bytes`. -/
def Vertex.from_bytes (data : List Nat) : MResult Vertex :=
  if data.length < 4 then .fmtErr "Not enough bytes for vertex"
  else .ok ⟨[byteAt data 0, byteAt data 1, byteAt data 2], byteAt data 3⟩

/-- `md2.rs::Frame`: scale and translate 3-vectors plus a 16-byte name. -/
structure Frame where
  scale : List ℚ
  translate : List ℚ
  name : List Nat
deriving DecidableEq

/-- `Frame::from_bytes`: 40 bytes = 6 f32 fields + 16 name bytes. -/
def Frame.from_bytes (data : List Nat) : MResult Frame :=
  if data.length < 40 then .fmtErr "Not enough bytes for frame"
  else .ok ⟨[decodeF32 data 0, decodeF32 data 4, decodeF32 data 8],
    [decodeF32 data 12, decodeF32 data 16, decodeF32 data 20],
    (data.drop 24).take 16⟩

/-- `char::is_ascii_digit || char::is_ascii_control` at the byte level
(digits 0x30-0x39; controls 0x00-0x1F and 0x7F). -/
def isDigitOrCtrlByte (b : Nat) : Bool :=
  (48 ≤ b && b ≤ 57) || b < 32 || b == 127

/-- `md2.rs::Frame::get_name`: truncate the name at the FIRST ascii digit
or control character (`s.find` of the predicate, then `s[0..end]`);
equivalently, take the longest digit/control-free prefix. -/
def Frame.get_name (f : Frame) : List Nat :=
  f.name.takeWhile (fun b => !(isDigitOrCtrlByte b))

/-- `md2.rs::Animation`: a clip name plus its decompressed keyframes. -/
structure Animation where
  name : List Nat
  key_frames : List (List V3)
deriving DecidableEq

/-- Decoded MD2 model (`md2.rs::MD2`), minus the filesystem-discovered
skin list (a filesystem concern outside the byte-level decoding). -/
structure MD2 where
  animations : List Animation
  texcoords : List V2
deriving DecidableEq

/-- Rust slice `&data[off..]`: in range (`off ≤ len`) yields the suffix,
out of range panics. -/
def sliceFrom (data : List Nat) (off : Nat) : MResult (List Nat) :=
  if off ≤ data.length then .ok (data.drop off) else .panicked

/-- `usize::try_from` on an `i32`: fails exactly on negative values; the
dynamic `format!` message is modelled by the fixed string the conversion
produces. -/
def usizeOfI32 (n : Int) (msg : String) : MResult Nat :=
  if n < 0 then .fmtErr msg else .ok n.toNat

/-- Rust `Vec` indexing `l[i]`: panics when out of bounds. -/
def vecIndex {α : Type} (l : List α) (i : Nat) : MResult α :=
  match l.get? i with
  | some a => .ok a
  | none => .panicked

/-- Loop body of `MD2::load_triangles`: `for i in 0..num_tris` reading a
12-byte triangle record at `tris_off + i * 12` from `&data[off..]`. -/
def load_triangles_go (data : List Nat) (tris_off : Nat) :
    Nat → Nat → MResult (List Triangle)
  | 0, _ => .ok []
  | n + 1, i => do
    let slice ← sliceFrom data (tris_off + i * 12)
    let t ← Triangle.from_bytes slice
    let rest ← load_triangles_go data tris_off n (i + 1)
    pure (t :: rest)

/-- `MD2::load_triangles`. -/
def MD2.load_triangles (data : List Nat) (header : Header) :
    MResult (List Triangle) := do
  let _num_tris ← usizeOfI32 header.num_tris
    "Invalid number of triangles - out of range integral type conversion attempted"
  let tris_off ← usizeOfI32 header.offset_tris
    "Invalid triangles offset - out of range integral type conversion attempted"
  load_triangles_go data tris_off header.num_tris.toNat 0

/-- Loop body of the first half of `MD2::load_texcoords`: read `num_st`
4-byte texcoord records at `st_off + i * 4`. -/
def load_st_go (data : List Nat) (st_off : Nat) :
    Nat → Nat → MResult (List TexCoord)
  | 0, _ => .ok []
  | n + 1, i => do
    let slice ← sliceFrom data (st_off + i * 4)
    let tc ← TexCoord.from_bytes slice
    let rest ← load_st_go data st_off n (i + 1)
    pure (tc :: rest)

/-- Second half of `MD2::load_texcoords`: for each triangle and each of its
three texcoord indices, index into the unscaled table (a `Vec` index that
panics when out of range) and normalise by skin width/height. -/
def scale_st (unscaled : List TexCoord) (skin_w skin_h : ℚ) :
    List Triangle → MResult (List V2)
  | [] => .ok []
  | tri :: rest => do
    let a ← vecIndex unscaled (tri.st.getD 0 0)
    let b ← vecIndex unscaled (tri.st.getD 1 0)
    let c ← vecIndex unscaled (tri.st.getD 2 0)
    let tail ← scale_st unscaled skin_w skin_h rest
    pure (⟨(a.s : ℚ) / skin_w, (a.t : ℚ) / skin_h⟩ ::
      ⟨(b.s : ℚ) / skin_w, (b.t : ℚ) / skin_h⟩ ::
      ⟨(c.s : ℚ) / skin_w, (c.t : ℚ) / skin_h⟩ :: tail)

/-- `MD2::load_texcoords`. -/
def MD2.load_texcoords (data : List Nat) (header : Header)
    (triangles : List Triangle) : MResult (List V2) := do
  let num_st ← usizeOfI32 header.num_st
    "Invalid number of texcoords - out of range integral type conversion attempted"
  let st_off ← usizeOfI32 header.offset_st
    "Invalid texcoords offset - out of range integral type conversion attempted"
  let unscaled ← load_st_go data st_off num_st 0
  scale_st unscaled (header.skinwidth : ℚ) (header.skinheight : ℚ) triangles

/-- Loop body of the first half of `MD2::read_and_decompress_vertices`:
read `num_xyz` 4-byte vertex records at `i * 4` of the frame's data. -/
def load_verts_go (data : List Nat) : Nat → Nat → MResult (List Vertex)
  | 0, _ => .ok []
  | n + 1, i => do
    let slice ← sliceFrom data (i * 4)
    let v ← Vertex.from_bytes slice
    let rest ← load_verts_go data n (i + 1)
    pure (v :: rest)

/-- Vertex decompression: `coordinate = raw_byte * scale + translate` per
axis, with the y/z axes swapped as in the source. -/
def decompress_vertex (frame : Frame) (vert : Vertex) : V3 :=
  let x := frame.scale.getD 0 0 * (vert.v.getD 0 0 : ℚ) + frame.translate.getD 0 0
  let z := frame.scale.getD 1 0 * (vert.v.getD 1 0 : ℚ) + frame.translate.getD 1 0
  let y := frame.scale.getD 2 0 * (vert.v.getD 2 0 : ℚ) + frame.translate.getD 2 0
  ⟨x, y, z⟩

/-- Second half of `MD2::read_and_decompress_vertices`: per triangle, index
the raw vertex table (`Vec` index, panics when out of range) and
decompress. -/
def expand_verts (raw : List Vertex) (frame : Frame) :
    List Triangle → MResult (List V3)
  | [] => .ok []
  | tri :: rest => do
    let v0 ← vecIndex raw (tri.vertex.getD 0 0)
    let v1 ← vecIndex raw (tri.vertex.getD 1 0)
    let v2 ← vecIndex raw (tri.vertex.getD 2 0)
    let tail ← expand_verts raw frame rest
    pure (decompress_vertex frame v0 :: decompress_vertex frame v1 ::
      decompress_vertex frame v2 :: tail)

/-- `MD2::read_and_decompress_vertices`. -/
def MD2.read_and_decompress_vertices (data : List Nat) (num_xyz : Nat)
    (frame : Frame) (triangles : List Triangle) : MResult (List V3) := do
  let raw ← load_verts_go data num_xyz 0
  expand_verts raw frame triangles

/-- Loop body of `MD2::load_animations`: parse a 40-byte frame sub-header at
`off`, then its `num_xyz` vertex records at `off + 40`, then apply the
clip-grouping rule; the final flush emits the pending clip when its
keyframe list is nonempty (`last_frame_name.unwrap()` panics if no name
was ever recorded). -/
def load_anims_go (data : List Nat) (triangles : List Triangle)
    (num_xyz : Nat) :
    Nat → Nat → List (List V3) → List Animation → Option (List Nat) →
    MResult (List Animation)
  | 0, _, key_frames, anims, last =>
    if key_frames.isEmpty then .ok anims
    else match last with
      | some nm => .ok (anims ++ [⟨nm, key_frames⟩])
      | none => .panicked
  | n + 1, off, key_frames, anims, last => do
    let slice ← sliceFrom data off
    let frame ← Frame.from_bytes slice
    let slice2 ← sliceFrom data (off + 40)
    let vertices ← MD2.read_and_decompress_vertices slice2 num_xyz frame triangles
    let curr := frame.get_name
    match last with
    | some prev =>
      if prev ≠ curr then
        load_anims_go data triangles num_xyz n (off + 40 + num_xyz * 4)
          [vertices] (anims ++ [⟨prev, key_frames⟩]) (some curr)
      else
        load_anims_go data triangles num_xyz n (off + 40 + num_xyz * 4)
          (key_frames ++ [vertices]) anims (some curr)
    | none =>
      load_anims_go data triangles num_xyz n (off + 40 + num_xyz * 4)
        (key_frames ++ [vertices]) anims (some curr)

/-- `MD2::load_animations`. -/
def MD2.load_animations (data : List Nat) (header : Header)
    (triangles : List Triangle) : MResult (List Animation) := do
  let num_xyz ← usizeOfI32 header.num_xyz
    "Invalid number of vertices - out of range integral type conversion attempted"
  let frames_off ← usizeOfI32 header.offset_frames
    "Invalid frames offset - out of range integral type conversion attempted"
  load_anims_go data triangles num_xyz header.num_frames.toNat frames_off [] [] none

/-- `MD2::load` on an already-read byte buffer (the `fs::read` I/O step and
the directory scan for skins are external collaborators). -/
def MD2.load (data : List Nat) : MResult MD2 := do
  let header ← Header.from_bytes data
  let triangles ← MD2.load_triangles data header
  let texcoords ← MD2.load_texcoords data header triangles
  let animations ← MD2.load_animations data header triangles
  pure ⟨animations, texcoords⟩

/-! ## Animation player (`md2.rs::MD2Component`) -/

/-- Playback state of `md2.rs::MD2Component`: the decoded model plus the
current clip index, frame cursor and interpolation factor (the skin index
and material handles are render concerns outside the playback contract). -/
structure MD2Component where
  md2 : MD2
  anim_idx : Nat
  curr_frame : Nat
  interp : ℚ
deriving DecidableEq

/-- `MD2Component::set_anim_idx`: select a clip, resetting the frame cursor
and interpolation factor. -/
def MD2Component.set_anim_idx (c : MD2Component) (idx : Nat) : MD2Component :=
  { c with anim_idx := idx, curr_frame := 0, interp := 0 }

/-- `MD2Component::animate`: add `8 * delta` to the factor; on reaching 1.0
advance the frame cursor (wrapping modulo the clip's frame count) and
reset the factor; lerp every vertex between the current and next frame.
Clip/frame indexing and `% 0` panic as the Rust `Vec` operations do. -/
def MD2Component.animate (c : MD2Component) (delta : ℚ) :
    MResult (MD2Component × List V3) := do
  let anim ← vecIndex c.md2.animations c.anim_idx
  let n := anim.key_frames.length
  if n = 0 then .panicked
  else
    let interp0 := c.interp + 8 * delta
    let next0 := (c.curr_frame + 1) % n
    let st := if 1 ≤ interp0 then (next0, (next0 + 1) % n, (0 : ℚ))
      else (c.curr_frame, next0, interp0)
    let curr_v ← vecIndex anim.key_frames st.1
    let next_v ← vecIndex anim.key_frames st.2.1
    if next_v.length < curr_v.length then .panicked
    else .ok ({ c with interp := st.2.2, curr_frame := st.1 },
      (List.range curr_v.length).map
        (fun i => V3.lerp (curr_v.getD i ⟨0, 0, 0⟩) (next_v.getD i ⟨0, 0, 0⟩) st.2.2))

/-- An action on the playback state: `selectClip` or `advance`. -/
inductive Act where
  | select : Nat → Act
  | adv : ℚ → Act

/-- Validity of one action: selected clip indices are in range and time
deltas are nonnegative. -/
def actOK (len : Nat) : Act → Bool
  | .select i => i < len
  | .adv d => 0 ≤ d

/-- Run a sequence of select/advance actions on the playback state. -/
def runActs : MD2Component → List Act → MResult MD2Component
  | c, [] => .ok c
  | c, .select i :: rest => runActs (c.set_anim_idx i) rest
  | c, .adv d :: rest => (c.animate d).bind (fun p => runActs p.1 rest)

/-- The current clip (`self.md2.animations[self.anim_idx]`), total for
stating the invariant. -/
def currClip (c : MD2Component) : Animation :=
  c.md2.animations.getD c.anim_idx ⟨[], []⟩

/-- Playback-state invariant: valid clip index, every clip nonempty with
keyframes of one common length (as the decoder produces: `3 * num_tris`
vertices each), frame cursor within the current clip, factor in [0,1). -/
def PlayInv (c : MD2Component) : Prop :=
  c.anim_idx < c.md2.animations.length ∧
  (∀ a ∈ c.md2.animations, a.key_frames ≠ []) ∧
  (∀ a ∈ c.md2.animations, ∀ k1 ∈ a.key_frames, ∀ k2 ∈ a.key_frames,
    k1.length = k2.length) ∧
  c.curr_frame < (currClip c).key_frames.length ∧
  0 ≤ c.interp ∧ c.interp < 1

instance (c : MD2Component) : Decidable (PlayInv c) := by
  unfold PlayInv; infer_instance

/-! ## PCX image decoder (`pcx.rs`) -/

/-- Decoded image (`bevy::Image` payload): dimensions plus the flat RGBA
buffer. -/
structure PImage where
  width : Nat
  height : Nat
  rgba : List Nat
deriving DecidableEq

/-- Loop of `pcx.rs::decompress_rle_data`: while input remains and the
output is below `total_bytes`, read a byte; `byte ≥ 0xC0` announces a run
(low six bits = count, next byte = value, missing value byte is a format
error); otherwise the byte is a literal.  For byte values the mask
`byte & 0x3F` equals `byte % 64`. -/
def rleGo (total : Nat) : List Nat → List Nat → MResult (List Nat)
  | [], acc => .ok acc
  | b :: rest, acc =>
    if total ≤ acc.length then .ok acc
    else if 192 ≤ b then
      match rest with
      | [] => .fmtErr "Unexpected end of data"
      | v :: rest2 => rleGo total rest2 (acc ++ List.replicate (b % 64) v)
    else rleGo total rest (acc ++ [b])

/-- `pcx.rs::decompress_rle_data`. -/
def decompress_rle_data (data : List Nat) (total_bytes : Nat) :
    MResult (List Nat) :=
  rleGo total_bytes data []

/-- `usize::checked_sub`. -/
def checkedSub (a b : Nat) : Option Nat :=
  if b ≤ a then some (a - b) else none

/-- Inner x-loop of `decode_8bit_indexed`: one pixel = palette lookup of the
decompressed index byte at `y * bytes_per_line + x`, emitted as RGBA. -/
def pix8_x (dec pal : List Nat) (bpl y : Nat) : Nat → Nat → MResult (List Nat)
  | 0, _ => .ok []
  | n + 1, x =>
    let src_idx := y * bpl + x
    if dec.length ≤ src_idx then .fmtErr "Insufficient data"
    else
      let pidx := dec.getD src_idx 0 * 3
      if pal.length ≤ pidx + 2 then .fmtErr "Invalid palette index"
      else do
        let rest ← pix8_x dec pal bpl y n (x + 1)
        pure (pal.getD pidx 0 :: pal.getD (pidx + 1) 0 ::
          pal.getD (pidx + 2) 0 :: 255 :: rest)

/-- Outer y-loop of `decode_8bit_indexed`. -/
def pix8_y (dec pal : List Nat) (bpl width : Nat) :
    Nat → Nat → MResult (List Nat)
  | 0, _ => .ok []
  | n + 1, y => do
    let row ← pix8_x dec pal bpl y width 0
    let rest ← pix8_y dec pal bpl width n (y + 1)
    pure (row ++ rest)

/-- `pcx.rs::decode_8bit_indexed`: palette from the 769-byte trailer
(marker `0x0C`), RLE region between the 128-byte header and the palette
(the slice `&data[128..palette_offset]` panics when the palette offset is
below 128), then per-pixel palette conversion.  The output is the RGBA
buffer the Rust code writes in row-major order. -/
def decode_8bit_indexed (data : List Nat) (width height bytes_per_line : Nat) :
    MResult (List Nat) :=
  match checkedSub data.length 769 with
  | none => .fmtErr "File too small for palette"
  | some palette_offset =>
    if byteAt data palette_offset ≠ 12 then .fmtErr "Invalid palette marker"
    else if palette_offset < 128 then .panicked
    else
      let palette := data.drop (palette_offset + 1)
      let compressed := (data.take palette_offset).drop 128
      let total_bytes := bytes_per_line * height
      (decompress_rle_data compressed total_bytes).bind fun dec =>
        pix8_y dec palette bytes_per_line width height 0

/-- Inner x-loop of `decode_24bit_rgb`: the red/green/blue planes of a
scanline are consecutive `bytes_per_line`-sized runs; only the largest
offset (blue) is bounds-checked, which suffices as in the source. -/
def pix24_x (dec : List Nat) (bpl scanline : Nat) :
    Nat → Nat → MResult (List Nat)
  | 0, _ => .ok []
  | n + 1, x =>
    let b_off := scanline + bpl * 2 + x
    if dec.length ≤ b_off then .fmtErr "Insufficient RGB data"
    else do
      let rest ← pix24_x dec bpl scanline n (x + 1)
      pure (dec.getD (scanline + x) 0 :: dec.getD (scanline + bpl + x) 0 ::
        dec.getD b_off 0 :: 255 :: rest)

/-- Outer y-loop of `decode_24bit_rgb`. -/
def pix24_y (dec : List Nat) (bpl planes width : Nat) :
    Nat → Nat → MResult (List Nat)
  | 0, _ => .ok []
  | n + 1, y => do
    let row ← pix24_x dec bpl (y * bpl * planes) width 0
    let rest ← pix24_y dec bpl planes width n (y + 1)
    pure (row ++ rest)

/-- `pcx.rs::decode_24bit_rgb` (its caller has already checked
`data.length ≥ 128`, so `&data[128..]` cannot panic here). -/
def decode_24bit_rgb (data : List Nat) (width height bytes_per_line planes : Nat) :
    MResult (List Nat) :=
  let total_bytes := bytes_per_line * planes * height
  (decompress_rle_data (data.drop 128) total_bytes).bind fun dec =>
    pix24_y dec bytes_per_line planes width height 0

/-- `pcx.rs::decode_pcx_data`: header-length and encoding checks, then
dispatch on (bits-per-pixel, plane count); the dynamic `format!` message
of the unsupported case is modelled by its fixed stem. -/
def decode_pcx_data (data : List Nat) (width height : Nat) :
    MResult (List Nat) :=
  if data.length < 128 then .fmtErr "Header too small"
  else
    let encoding := byteAt data 2
    let bits_per_pixel := byteAt data 3
    let planes := byteAt data 65
    let bytes_per_line := readU16 data 66
    if encoding ≠ 1 then .fmtErr "Only RLE encoding is supported"
    else if bits_per_pixel = 8 ∧ planes = 1 then
      decode_8bit_indexed data width height bytes_per_line
    else if bits_per_pixel = 8 ∧ (planes = 3 ∨ planes = 4) then
      decode_24bit_rgb data width height bytes_per_line planes
    else .fmtErr "Unsupported PCX format"

/-- `pcx.rs::parse_pcx`: length and signature checks, bounding box,
`width = xmax - xmin + 1` and `height = ymax - ymin + 1` as unsigned
(`u32`) subtractions — modelled with checked arithmetic, so an underflow
(`xmax < xmin` or `ymax < ymin`), like a `u32` overflow of the RGBA buffer
size `width * height * 4`, is a panic, not a format error. -/
def parse_pcx (data : List Nat) : MResult PImage :=
  if data.length < 128 then .fmtErr "File too small to be valid PCX"
  else if byteAt data 0 ≠ 10 then .fmtErr "Not a valid PCX file"
  else
    let xmin := readU16 data 4
    let ymin := readU16 data 6
    let xmax := readU16 data 8
    let ymax := readU16 data 10
    if xmax < xmin then .panicked
    else if ymax < ymin then .panicked
    else
      let width := xmax - xmin + 1
      let height := ymax - ymin + 1
      if 4294967296 ≤ width * height * 4 then .panicked
      else (decode_pcx_data data width height).bind fun rgba =>
        .ok ⟨width, height, rgba⟩

/-! ## Spec-side definitions

These follow the specification's wording (and, for `trim_trailing`, the
`lib.rs` decoder variant) rather than `md2.rs`, and exist to be compared
with the source-derived definitions above. -/

/-- Modelled from the spec: "a keyframe's name is derived by trimming
trailing ASCII digits and control characters from its 16-byte name field"
(this is also what `lib.rs::Frame::get_name` does via
`trim_end_matches`). -/
def trim_trailing (name : List Nat) : List Nat :=
  (name.reverse.dropWhile (fun b => isDigitOrCtrlByte b)).reverse

/-- Modelled from the spec: group a sequence of (trimmed name, keyframe)
pairs into clips, one clip per maximal run of equal consecutive names. -/
def chunksSpec : List (List Nat × List V3) → List Animation
  | [] => []
  | (nm, kf) :: rest =>
    match chunksSpec rest with
    | [] => [⟨nm, [kf]⟩]
    | a :: tail =>
      if a.name = nm then ⟨nm, kf :: a.key_frames⟩ :: tail
      else ⟨nm, [kf]⟩ :: a :: tail

/-- One step of the adjacent-name chunking: prepend `(nm, kf)` to an
already chunked list, merging with its first chunk when the names agree
(the body of `chunksSpec`'s cons case). -/
def consChunk (nm : List Nat) (kf : List V3) :
    List Animation → List Animation
  | [] => [⟨nm, [kf]⟩]
  | a :: tail =>
    if a.name = nm then ⟨nm, kf :: a.key_frames⟩ :: tail
    else ⟨nm, [kf]⟩ :: a :: tail

/-- The sequence of (trimmed name, decompressed keyframe) pairs parsed by
the frame loop of `MD2::load_animations`, without the grouping: same
parsing steps in the same order, collected flat. -/
def frames_seq_go (data : List Nat) (triangles : List Triangle)
    (num_xyz : Nat) : Nat → Nat → MResult (List (List Nat × List V3))
  | 0, _ => .ok []
  | n + 1, off => do
    let slice ← sliceFrom data off
    let frame ← Frame.from_bytes slice
    let slice2 ← sliceFrom data (off + 40)
    let vertices ← MD2.read_and_decompress_vertices slice2 num_xyz frame triangles
    let rest ← frames_seq_go data triangles num_xyz n (off + 40 + num_xyz * 4)
    pure ((frame.get_name, vertices) :: rest)

/-- `frames_seq_go` with the same count/offset setup as
`MD2::load_animations`. -/
def frames_seq (data : List Nat) (header : Header)
    (triangles : List Triangle) : MResult (List (List Nat × List V3)) := do
  let num_xyz ← usizeOfI32 header.num_xyz
    "Invalid number of vertices - out of range integral type conversion attempted"
  let frames_off ← usizeOfI32 header.offset_frames
    "Invalid frames offset - out of range integral type conversion attempted"
  frames_seq_go data triangles num_xyz header.num_frames.toNat frames_off

/-- The pure grouping performed by the loop of `MD2::load_animations`,
abstracted from the parsing: same accumulator discipline over an already
parsed (name, keyframe) list. -/
def groupTail : List (List Nat × List V3) → List (List V3) →
    List Animation → Option (List Nat) → MResult (List Animation)
  | [], key_frames, anims, last =>
    if key_frames.isEmpty then .ok anims
    else match last with
      | some nm => .ok (anims ++ [⟨nm, key_frames⟩])
      | none => .panicked
  | (nm, kf) :: rest, key_frames, anims, last =>
    match last with
    | some prev =>
      if prev ≠ nm then
        groupTail rest [kf] (anims ++ [⟨prev, key_frames⟩]) (some nm)
      else groupTail rest (key_frames ++ [kf]) anims (some nm)
    | none => groupTail rest (key_frames ++ [kf]) anims (some nm)

/-- One chunk-merge step: prepend pending keyframes named `nm` onto a chunk
list, merging with its first chunk when the names agree. -/
def mergeChunk (nm : List Nat) (kfs : List (List V3)) :
    List Animation → List Animation
  | [] => [⟨nm, kfs⟩]
  | a :: tail =>
    if a.name = nm then ⟨nm, kfs ++ a.key_frames⟩ :: tail
    else ⟨nm, kfs⟩ :: a :: tail

/-! ## Byte positions of vertex normal-index bytes (for claim C9) -/

/-- `p` is the (ignored) normal-index byte of vertex `j` of frame `k`, per
the layout `MD2::load_animations` walks: frame `k` starts at
`offset_frames + k * (40 + 4 * num_xyz)`, its vertex records follow the
40-byte sub-header, and the normal byte is the fourth byte of a record. -/
def normalBytePos (h : Header) (p : Nat) : Prop :=
  ∃ k, k < h.num_frames.toNat ∧ ∃ j, j < h.num_xyz.toNat ∧
    p = h.offset_frames.toNat + k * (40 + 4 * h.num_xyz.toNat) + 40 + 4 * j + 3

/-- A byte position whose content may differ without affecting `MD2.load`:
a vertex normal-index byte that lies outside the header and outside the
triangle and texcoord sections (the format allows sections to overlap, and
an overlapping byte IS read). -/
def c9Allowed (h : Header) (p : Nat) : Prop :=
  normalBytePos h p ∧ 68 ≤ p ∧
  ¬ (h.offset_tris.toNat ≤ p ∧ p < h.offset_tris.toNat + 12 * h.num_tris.toNat) ∧
  ¬ (h.offset_st.toNat ≤ p ∧ p < h.offset_st.toNat + 4 * h.num_st.toNat)

/-! ## Concrete buffers used by counterexamples and witnesses -/

/-- A buffer holding only a 68-byte header that declares one triangle at
offset 100 — past the buffer end. -/
def c1buf : List Nat :=
  List.replicate 32 0 ++ [1, 0, 0, 0] ++ List.replicate 16 0 ++
    [100, 0, 0, 0] ++ List.replicate 12 0

/-- A 68-byte all-zero buffer: a header declaring zero frames (and zero of
everything else). -/
def c4buf : List Nat := List.replicate 68 0

/-- The all-zero header `Header.from_bytes` reads from `c4buf`. -/
def c4hdr : Header := ⟨0, 0, 0, 0, 0, 0, 0, 0, 0, 0, 0, 0, 0, 0, 0, 0, 0⟩

/-- A 70-byte buffer whose header declares zero frames but nonzero skin
dimensions (used as a second, distinct zero-frame example). -/
def c4buf2 : List Nat :=
  List.replicate 8 0 ++ [5, 0, 0, 0] ++ [7, 0, 0, 0] ++ List.replicate 52 0 ++ [9, 9]

/-- The header `Header.from_bytes` reads from `c4buf2`. -/
def c4hdr2 : Header := ⟨0, 0, 5, 7, 0, 0, 0, 0, 0, 0, 0, 0, 0, 0, 0, 0, 0⟩

/-- The 16-byte name field "a1b" + 13 NULs: its digit/control trimming
differs between first-occurrence truncation and trailing trimming. -/
def c3name : List Nat := [97, 49, 98] ++ List.replicate 13 0

/-- 124-byte model buffer for claim C9, parameterised by the normal-index
byte of its single vertex record (position 111): one frame at offset 68,
one vertex, one triangle at offset 100 — deliberately overlapping the
frame data so that byte 111 is also the HIGH byte of the triangle's third
texcoord index — and two texcoords at offset 116.  Flipping the normal
byte to 1 turns that texcoord index into 256, out of the table's range. -/
def c9buf (b : Nat) : List Nat :=
  [0, 0, 0, 0, 0, 0, 0, 0, 1, 0, 0, 0, 1, 0, 0, 0,
   0, 0, 0, 0, 0, 0, 0, 0, 1, 0, 0, 0, 2, 0, 0, 0,
   1, 0, 0, 0, 0, 0, 0, 0, 1, 0, 0, 0, 0, 0, 0, 0,
   116, 0, 0, 0, 100, 0, 0, 0, 68, 0, 0, 0, 0, 0, 0, 0,
   0, 0, 0, 0] ++ List.replicate 43 0 ++ [b] ++ [0, 0, 0, 0] ++
  [0, 0, 0, 0, 1, 0, 0, 0]

/-- The header `Header.from_bytes` reads from `c9buf b`. -/
def c9hdr : Header := ⟨0, 0, 1, 1, 0, 0, 1, 2, 1, 0, 1, 0, 116, 100, 68, 0, 0⟩

/-- Like `c9buf`, but with the triangle section at offset 112, so that no
section overlaps the normal-index byte at position 111 (the witness buffer
for the amended noninterference theorem). -/
def c9wbuf : List Nat :=
  [0, 0, 0, 0, 0, 0, 0, 0, 1, 0, 0, 0, 1, 0, 0, 0,
   0, 0, 0, 0, 0, 0, 0, 0, 1, 0, 0, 0, 2, 0, 0, 0,
   1, 0, 0, 0, 0, 0, 0, 0, 1, 0, 0, 0, 0, 0, 0, 0,
   116, 0, 0, 0, 112, 0, 0, 0, 68, 0, 0, 0, 0, 0, 0, 0,
   0, 0, 0, 0] ++ List.replicate 43 0 ++ [0] ++ [0, 0, 0, 0] ++
  [0, 0, 0, 0, 1, 0, 0, 0]

/-- The header `Header.from_bytes` reads from `c9wbuf`. -/
def c9whdr : Header := ⟨0, 0, 1, 1, 0, 0, 1, 2, 1, 0, 1, 0, 116, 112, 68, 0, 0⟩

/-- 188-byte model buffer for claim C8: zero triangles and vertices, three
frames named "run1", "run2", "idle1" at offset 68. -/
def c8buf : List Nat :=
  List.replicate 24 0 ++ [0, 0, 0, 0, 0, 0, 0, 0, 0, 0, 0, 0] ++
    [0, 0, 0, 0, 3, 0, 0, 0] ++ List.replicate 12 0 ++ [68, 0, 0, 0] ++
    List.replicate 8 0 ++
  (List.replicate 24 0 ++ [114, 117, 110, 49] ++ List.replicate 12 0) ++
  (List.replicate 24 0 ++ [114, 117, 110, 50] ++ List.replicate 12 0) ++
  (List.replicate 24 0 ++ [105, 100, 108, 101, 49] ++ List.replicate 11 0)

/-- The header `Header.from_bytes` reads from `c8buf`. -/
def c8hdr : Header := ⟨0, 0, 0, 0, 0, 0, 0, 0, 0, 0, 3, 0, 0, 0, 68, 0, 0⟩

/-- A 128-byte image buffer with valid signature and RLE encoding whose
bounding box has `xmax = 0 < 1 = xmin`. -/
def c10buf : List Nat :=
  [10, 0, 1, 8, 1, 0, 0, 0, 0, 0, 0, 0] ++ List.replicate 116 0

/-- Playback witness state: one clip ("r") of two single-vertex keyframes. -/
def cW : MD2Component :=
  ⟨⟨[⟨[114], [[⟨0, 0, 0⟩], [⟨1, 2, 3⟩]]⟩], []⟩, 0, 0, 0⟩

/-- Pointwise relation on parsed vertex lists: equal `v` coordinates
(normal indices may differ). -/
inductive VListRel : List Vertex → List Vertex → Prop
  | nil : VListRel [] []
  | cons : ∀ a b l1 l2, a.v = b.v → VListRel l1 l2 → VListRel (a :: l1) (b :: l2)

/-- Relation between vertex-parse results of two buffers differing only in
normal-index bytes: same outcome shape, and parsed vertices agree on their
`v` coordinates. -/
inductive VRel : MResult (List Vertex) → MResult (List Vertex) → Prop
  | ok : ∀ l1 l2, VListRel l1 l2 → VRel (.ok l1) (.ok l2)
  | fmtErr : ∀ s, VRel (.fmtErr s) (.fmtErr s)
  | panicked : VRel .panicked .panicked

/-! ## Helper lemmas -/

theorem mres_ok_bind {α β : Type} (a : α) (f : α → MResult β) :
    MResult.ok a >>= f = f a := rfl

theorem mres_fmtErr_bind {α β : Type} (s : String) (f : α → MResult β) :
    (MResult.fmtErr s : MResult α) >>= f = .fmtErr s := rfl

theorem mres_panicked_bind {α β : Type} (f : α → MResult β) :
    (MResult.panicked : MResult α) >>= f = .panicked := rfl

theorem mres_pure {α : Type} (a : α) : (pure a : MResult α) = .ok a := rfl

theorem mres_ok_inj {α : Type} {a b : α} (h : MResult.ok a = MResult.ok b) :
    a = b := by cases h; rfl

/-- Splitting a bind that produced `ok`: the first stage produced `ok`. -/
theorem mres_bind_ok {α β : Type} {m : MResult α} {f : α → MResult β}
    {b : β} (h : m >>= f = .ok b) : ∃ a, m = .ok a ∧ f a = .ok b := by
  cases m with
  | ok a => exact ⟨a, rfl, h⟩
  | fmtErr s => cases h
  | panicked => cases h

theorem rleGo_nil (total : Nat) (acc : List Nat) :
    rleGo total [] acc = .ok acc := rfl

theorem rleGo_cons (total b : Nat) (rest acc : List Nat) :
    rleGo total (b :: rest) acc =
      if total ≤ acc.length then .ok acc
      else if 192 ≤ b then
        match rest with
        | [] => .fmtErr "Unexpected end of data"
        | v :: rest2 => rleGo total rest2 (acc ++ List.replicate (b % 64) v)
      else rleGo total rest (acc ++ [b]) := by
  rw [rleGo.eq_def]

/-- The accumulator only grows during RLE decompression. -/
theorem rleGo_acc_le (total : Nat) :
    ∀ n (data : List Nat), data.length ≤ n → ∀ acc out,
      rleGo total data acc = .ok out → acc.length ≤ out.length := by
  intro n
  induction n with
  | zero =>
    intro data hlen acc out h
    have hd : data = [] := List.eq_nil_of_length_eq_zero (Nat.le_zero.mp hlen)
    subst hd
    rw [rleGo_nil] at h
    cases h
    exact le_rfl
  | succ n ih =>
    intro data hlen acc out h
    cases data with
    | nil =>
      rw [rleGo_nil] at h
      cases h
      exact le_rfl
    | cons b rest =>
      rw [rleGo_cons] at h
      by_cases hfull : total ≤ acc.length
      · rw [if_pos hfull] at h
        cases h
        exact le_rfl
      · rw [if_neg hfull] at h
        by_cases hrun : 192 ≤ b
        · rw [if_pos hrun] at h
          cases rest with
          | nil => cases h
          | cons v rest2 =>
            have hlen2 : rest2.length ≤ n := by
              simp only [List.length_cons] at hlen
              omega
            have := ih rest2 hlen2 (acc ++ List.replicate (b % 64) v) out h
            simp only [List.length_append, List.length_replicate] at this
            omega
        · rw [if_neg hrun] at h
          have hlen2 : rest.length ≤ n := by
            simp only [List.length_cons] at hlen
            omega
          have := ih rest hlen2 (acc ++ [b]) out h
          simp only [List.length_append, List.length_singleton] at this
          omega

/-- The decompressed output can exceed the requested length by at most 62
bytes (a run announced below the limit is emitted in full). -/
theorem rleGo_len_le (total : Nat) :
    ∀ n (data : List Nat), data.length ≤ n → ∀ acc out,
      rleGo total data acc = .ok out → acc.length ≤ total + 62 →
      out.length ≤ total + 62 := by
  intro n
  induction n with
  | zero =>
    intro data hlen acc out h hacc
    have hd : data = [] := List.eq_nil_of_length_eq_zero (Nat.le_zero.mp hlen)
    subst hd
    rw [rleGo_nil] at h
    cases h
    exact hacc
  | succ n ih =>
    intro data hlen acc out h hacc
    cases data with
    | nil =>
      rw [rleGo_nil] at h
      cases h
      exact hacc
    | cons b rest =>
      rw [rleGo_cons] at h
      by_cases hfull : total ≤ acc.length
      · rw [if_pos hfull] at h
        cases h
        exact hacc
      · rw [if_neg hfull] at h
        by_cases hrun : 192 ≤ b
        · rw [if_pos hrun] at h
          cases rest with
          | nil => cases h
          | cons v rest2 =>
            have hlen2 : rest2.length ≤ n := by
              simp only [List.length_cons] at hlen
              omega
            refine ih rest2 hlen2 _ out h ?_
            have hcnt : b % 64 < 64 := Nat.mod_lt _ (by omega)
            simp only [List.length_append, List.length_replicate]
            omega
        · rw [if_neg hrun] at h
          have hlen2 : rest.length ≤ n := by
            simp only [List.length_cons] at hlen
            omega
          refine ih rest hlen2 _ out h ?_
          simp only [List.length_append, List.length_singleton]
          omega

/-- When decompression stopped short of the requested length (input was
exhausted), raising the requested length does not change the output. -/
theorem rleGo_stable (total total2 : Nat) (hle : total ≤ total2) :
    ∀ n (data : List Nat), data.length ≤ n → ∀ acc out,
      rleGo total data acc = .ok out → out.length < total →
      rleGo total2 data acc = .ok out := by
  intro n
  induction n with
  | zero =>
    intro data hlen acc out h _
    have hd : data = [] := List.eq_nil_of_length_eq_zero (Nat.le_zero.mp hlen)
    subst hd
    rw [rleGo_nil] at h ⊢
    exact h
  | succ n ih =>
    intro data hlen acc out h hshort
    cases data with
    | nil =>
      rw [rleGo_nil] at h ⊢
      exact h
    | cons b rest =>
      have hacc : acc.length ≤ out.length :=
        rleGo_acc_le total (rest.length + 1) (b :: rest) (by simp) acc out h
      rw [rleGo_cons] at h ⊢
      have hfull : ¬ total ≤ acc.length := by omega
      have hfull2 : ¬ total2 ≤ acc.length := by omega
      rw [if_neg hfull] at h
      rw [if_neg hfull2]
      by_cases hrun : 192 ≤ b
      · rw [if_pos hrun] at h
        rw [if_pos hrun]
        cases rest with
        | nil => exact h
        | cons v rest2 =>
          have hlen2 : rest2.length ≤ n := by
            simp only [List.length_cons] at hlen
            omega
          exact ih rest2 hlen2 _ out h hshort
      · rw [if_neg hrun] at h
        rw [if_neg hrun]
        have hlen2 : rest.length ≤ n := by
          simp only [List.length_cons] at hlen
          omega
        exact ih rest hlen2 _ out h hshort

/-- C2, counterexample: with a requested total of 1 byte, the run
`[0xC3, 0x05]` decompresses to three bytes — the decompressor emits MORE
than the requested line-stride-derived length, refuting "produces exactly
the requested number of output bytes — never more". -/
theorem claim2_counterexample :
    decompress_rle_data [195, 5] 1 = .ok [5, 5, 5] ∧
    ¬ (([5, 5, 5] : List Nat).length ≤ 1) := by
  constructor
  · decide
  · decide

/-- C2, amended: the RLE decompression stops once the output has reached or
exceeded the requested length or input is exhausted; a repeat run starting
below the limit is emitted in full, so the output may exceed the requested
length by up to 62 bytes (never 63 or more); and when the output fell
short of the requested length (input exhausted), the result does not
depend on the requested length.  The pixel paths do not assert the exact
length before conversion — each pixel access is bounds-checked instead. -/
theorem claim2_amended :
    (∀ data total out, decompress_rle_data data total = .ok out →
      out.length ≤ total + 62) ∧
    (∀ data total total2 out, decompress_rle_data data total = .ok out →
      out.length < total → total ≤ total2 →
      decompress_rle_data data total2 = .ok out) := by
  constructor
  · intro data total out h
    exact rleGo_len_le total data.length data le_rfl [] out h (by simp)
  · intro data total total2 out h hshort hle
    exact rleGo_stable total total2 hle data.length data le_rfl [] out h hshort

/-- C2, witness for the amended theorem at a concrete input. -/
theorem claim2_witness :
    ([5, 5, 5] : List Nat).length ≤ 1 + 62 :=
  claim2_amended.1 [195, 5] 1 [5, 5, 5] (by decide)

/-- C5: the RLE step function exactly as claimed — a byte `b ≥ 0xC0`
consumes the next byte `v` and emits `v` repeated `b & 0x3F` times (end of
input before `v` is the format error "Unexpected end of data"), a byte
`b < 0xC0` emits itself; `[0xC3, 0x05]` with sufficient requested length
decompresses to `[5,5,5]`, and any single byte `< 0xC0` decompresses to
itself. -/
theorem claim5_theorem :
    (∀ b v rest total, 192 ≤ b → 0 < total →
      decompress_rle_data (b :: v :: rest) total =
        rleGo total rest (List.replicate (b % 64) v)) ∧
    (∀ b rest total, b < 192 → 0 < total →
      decompress_rle_data (b :: rest) total = rleGo total rest [b]) ∧
    (∀ b total, 192 ≤ b → 0 < total →
      decompress_rle_data [b] total = .fmtErr "Unexpected end of data") ∧
    (∀ total, 3 ≤ total → decompress_rle_data [195, 5] total = .ok [5, 5, 5]) ∧
    (∀ b total, b < 192 → 0 < total → decompress_rle_data [b] total = .ok [b]) := by
  refine ⟨?_, ?_, ?_, ?_, ?_⟩
  · intro b v rest total hb ht
    show rleGo total (b :: v :: rest) [] = _
    rw [rleGo_cons, if_neg (by simp only [List.length_nil]; omega), if_pos hb]
    show rleGo total rest ([] ++ List.replicate (b % 64) v) = _
    rw [List.nil_append]
  · intro b rest total hb ht
    show rleGo total (b :: rest) [] = _
    rw [rleGo_cons, if_neg (by simp only [List.length_nil]; omega),
      if_neg (by omega)]
    rw [List.nil_append]

  · intro b total hb ht
    show rleGo total [b] [] = _
    rw [rleGo_cons, if_neg (by simp only [List.length_nil]; omega), if_pos hb]
  · intro total ht
    show rleGo total [195, 5] [] = _
    rw [rleGo_cons, if_neg (by simp only [List.length_nil]; omega),
      if_pos (by omega)]
    show rleGo total [] ([] ++ List.replicate (195 % 64) 5) = _
    rw [rleGo_nil]
    rfl
  · intro b total hb ht
    show rleGo total [b] [] = _
    rw [rleGo_cons, if_neg (by simp only [List.length_nil]; omega),
      if_neg (by omega)]
    rw [rleGo_nil, List.nil_append]

/-- C5, witness: the step equations at concrete inputs. -/
theorem claim5_witness :
    decompress_rle_data [195, 5] 3 = .ok [5, 5, 5] ∧
    decompress_rle_data [7] 1 = .ok [7] ∧
    decompress_rle_data [200] 4 = .fmtErr "Unexpected end of data" := by
  refine ⟨claim5_theorem.2.2.2.1 3 (by decide),
    claim5_theorem.2.2.2.2 7 1 (by decide) (by decide),
    claim5_theorem.2.2.1 200 4 (by decide) (by decide)⟩

theorem load_triangles_go_zero (data : List Nat) (tris_off i : Nat) :
    load_triangles_go data tris_off 0 i = .ok [] := rfl

theorem load_triangles_go_succ (data : List Nat) (tris_off n i : Nat) :
    load_triangles_go data tris_off (n + 1) i = (do
      let slice ← sliceFrom data (tris_off + i * 12)
      let t ← Triangle.from_bytes slice
      let rest ← load_triangles_go data tris_off n (i + 1)
      pure (t :: rest)) := by
  rw [load_triangles_go.eq_def]

theorem load_st_go_zero (data : List Nat) (st_off i : Nat) :
    load_st_go data st_off 0 i = .ok [] := rfl

theorem load_st_go_succ (data : List Nat) (st_off n i : Nat) :
    load_st_go data st_off (n + 1) i = (do
      let slice ← sliceFrom data (st_off + i * 4)
      let tc ← TexCoord.from_bytes slice
      let rest ← load_st_go data st_off n (i + 1)
      pure (tc :: rest)) := by
  rw [load_st_go.eq_def]

theorem load_verts_go_zero (data : List Nat) (i : Nat) :
    load_verts_go data 0 i = .ok [] := rfl

theorem load_verts_go_succ (data : List Nat) (n i : Nat) :
    load_verts_go data (n + 1) i = (do
      let slice ← sliceFrom data (i * 4)
      let v ← Vertex.from_bytes slice
      let rest ← load_verts_go data n (i + 1)
      pure (v :: rest)) := by
  rw [load_verts_go.eq_def]

theorem scale_st_nil (unscaled : List TexCoord) (skin_w skin_h : ℚ) :
    scale_st unscaled skin_w skin_h [] = .ok [] := rfl

theorem scale_st_cons (unscaled : List TexCoord) (skin_w skin_h : ℚ)
    (tri : Triangle) (rest : List Triangle) :
    scale_st unscaled skin_w skin_h (tri :: rest) = (do
      let a ← vecIndex unscaled (tri.st.getD 0 0)
      let b ← vecIndex unscaled (tri.st.getD 1 0)
      let c ← vecIndex unscaled (tri.st.getD 2 0)
      let tail ← scale_st unscaled skin_w skin_h rest
      pure (⟨(a.s : ℚ) / skin_w, (a.t : ℚ) / skin_h⟩ ::
        ⟨(b.s : ℚ) / skin_w, (b.t : ℚ) / skin_h⟩ ::
        ⟨(c.s : ℚ) / skin_w, (c.t : ℚ) / skin_h⟩ :: tail)) := by
  rw [scale_st.eq_def]

theorem expand_verts_nil (raw : List Vertex) (frame : Frame) :
    expand_verts raw frame [] = .ok [] := rfl

theorem expand_verts_cons (raw : List Vertex) (frame : Frame)
    (tri : Triangle) (rest : List Triangle) :
    expand_verts raw frame (tri :: rest) = (do
      let v0 ← vecIndex raw (tri.vertex.getD 0 0)
      let v1 ← vecIndex raw (tri.vertex.getD 1 0)
      let v2 ← vecIndex raw (tri.vertex.getD 2 0)
      let tail ← expand_verts raw frame rest
      pure (decompress_vertex frame v0 :: decompress_vertex frame v1 ::
        decompress_vertex frame v2 :: tail)) := by
  rw [expand_verts.eq_def]

theorem load_anims_go_zero (data : List Nat) (triangles : List Triangle)
    (num_xyz off : Nat) (key_frames : List (List V3))
    (anims : List Animation) (last : Option (List Nat)) :
    load_anims_go data triangles num_xyz 0 off key_frames anims last =
      if key_frames.isEmpty then .ok anims
      else match last with
        | some nm => .ok (anims ++ [⟨nm, key_frames⟩])
        | none => .panicked := by
  rw [load_anims_go.eq_def]

theorem load_anims_go_succ (data : List Nat) (triangles : List Triangle)
    (num_xyz n off : Nat) (key_frames : List (List V3))
    (anims : List Animation) (last : Option (List Nat)) :
    load_anims_go data triangles num_xyz (n + 1) off key_frames anims last = (do
      let slice ← sliceFrom data off
      let frame ← Frame.from_bytes slice
      let slice2 ← sliceFrom data (off + 40)
      let vertices ← MD2.read_and_decompress_vertices slice2 num_xyz frame triangles
      let curr := frame.get_name
      match last with
      | some prev =>
        if prev ≠ curr then
          load_anims_go data triangles num_xyz n (off + 40 + num_xyz * 4)
            [vertices] (anims ++ [⟨prev, key_frames⟩]) (some curr)
        else
          load_anims_go data triangles num_xyz n (off + 40 + num_xyz * 4)
            (key_frames ++ [vertices]) anims (some curr)
      | none =>
        load_anims_go data triangles num_xyz n (off + 40 + num_xyz * 4)
          (key_frames ++ [vertices]) anims (some curr)) := by
  rw [load_anims_go.eq_def]

theorem frames_seq_go_zero (data : List Nat) (triangles : List Triangle)
    (num_xyz off : Nat) :
    frames_seq_go data triangles num_xyz 0 off = .ok [] := rfl

theorem frames_seq_go_succ (data : List Nat) (triangles : List Triangle)
    (num_xyz n off : Nat) :
    frames_seq_go data triangles num_xyz (n + 1) off = (do
      let slice ← sliceFrom data off
      let frame ← Frame.from_bytes slice
      let slice2 ← sliceFrom data (off + 40)
      let vertices ← MD2.read_and_decompress_vertices slice2 num_xyz frame triangles
      let rest ← frames_seq_go data triangles num_xyz n (off + 40 + num_xyz * 4)
      pure ((frame.get_name, vertices) :: rest)) := by
  rw [frames_seq_go.eq_def]

/-- C10: the image decoder does not validate the bounding box — for a
buffer with valid signature and length ≥ 128 whose box has
`xmax < xmin` (or `ymax < ymin`), `parse_pcx` panics on the unsigned
subtraction rather than returning a format error; and every successfully
decoded image satisfies `xmin ≤ xmax`, `ymin ≤ ymax`, with
`width = xmax - xmin + 1` and `height = ymax - ymin + 1`. -/
theorem claim10_theorem :
    (∀ data, 128 ≤ data.length → byteAt data 0 = 10 →
      (readU16 data 8 < readU16 data 4 ∨ readU16 data 10 < readU16 data 6) →
      parse_pcx data = .panicked) ∧
    (∀ data img, parse_pcx data = .ok img →
      readU16 data 4 ≤ readU16 data 8 ∧ readU16 data 6 ≤ readU16 data 10 ∧
      img.width = readU16 data 8 - readU16 data 4 + 1 ∧
      img.height = readU16 data 10 - readU16 data 6 + 1) := by
  constructor
  · intro data hlen hsig hbox
    rcases Nat.lt_or_ge (readU16 data 8) (readU16 data 4) with hx | hx
    · simp [parse_pcx, hsig, hx, Nat.not_lt.mpr hlen]
    · have hy : readU16 data 10 < readU16 data 6 := by
        rcases hbox with hb | hb
        · omega
        · exact hb
      simp [parse_pcx, hsig, hy, Nat.not_lt.mpr hlen, Nat.not_lt.mpr hx]
  · intro data img h
    simp only [parse_pcx] at h
    by_cases h1 : data.length < 128
    · rw [if_pos h1] at h
      cases h
    rw [if_neg h1] at h
    by_cases h2 : byteAt data 0 ≠ 10
    · rw [if_pos h2] at h
      cases h
    rw [if_neg h2] at h
    by_cases h3 : readU16 data 8 < readU16 data 4
    · rw [if_pos h3] at h
      cases h
    rw [if_neg h3] at h
    by_cases h4 : readU16 data 10 < readU16 data 6
    · rw [if_pos h4] at h
      cases h
    rw [if_neg h4] at h
    by_cases h5 : 4294967296 ≤
      (readU16 data 8 - readU16 data 4 + 1) * (readU16 data 10 - readU16 data 6 + 1) * 4
    · rw [if_pos h5] at h
      cases h
    rw [if_neg h5] at h
    obtain ⟨rgba, _, hok⟩ := mres_bind_ok h
    cases hok
    exact ⟨Nat.not_lt.mp h3, Nat.not_lt.mp h4, rfl, rfl⟩

/-- C10, witness: a concrete 128-byte buffer with valid signature and
`xmax = 0 < 1 = xmin` panics. -/
theorem claim10_witness : parse_pcx c10buf = .panicked :=
  claim10_theorem.1 c10buf (by decide) (by decide) (Or.inl (by decide))

/-- C4, counterexample: loading a buffer whose header declares zero
animation frames SUCCEEDS with an empty clip list — no format error is
returned, refuting the claim that such a buffer yields a format error and
no model value. -/
theorem claim4_counterexample : MD2.load c4buf = .ok ⟨[], []⟩ := by decide

/-- C4, amended: a buffer whose header declares zero animation frames does
not fail for that reason — when the header parses and the triangle and
texcoord stages succeed, the load succeeds and returns a model whose clip
list is empty. -/
theorem claim4_amended (data : List Nat) (h : Header) (tris : List Triangle)
    (tc : List V2) (hh : Header.from_bytes data = .ok h)
    (hf : h.num_frames = 0) (hx : 0 ≤ h.num_xyz) (ho : 0 ≤ h.offset_frames)
    (htris : MD2.load_triangles data h = .ok tris)
    (htc : MD2.load_texcoords data h tris = .ok tc) :
    MD2.load data = .ok ⟨[], tc⟩ := by
  have hanims : MD2.load_animations data h tris = .ok [] := by
    simp only [MD2.load_animations, usizeOfI32, if_neg (not_lt.mpr hx),
      if_neg (not_lt.mpr ho), mres_ok_bind]
    rw [hf]
    rw [show (0 : Int).toNat = 0 from rfl, load_anims_go_zero]
    rfl
  simp only [MD2.load, hh, htris, htc, hanims, mres_ok_bind, mres_pure]

/-- C4, witness for the amended theorem: a second concrete zero-frame
buffer (with nonzero skin dimensions and trailing bytes) also loads as a
model with an empty clip list. -/
theorem claim4_witness : MD2.load c4buf2 = .ok ⟨[], []⟩ :=
  claim4_amended c4buf2 c4hdr2 [] [] (by decide) (by decide) (by decide)
    (by decide) (by decide) (by decide)

/-- C1, counterexample: a buffer holding only a 68-byte header declaring
one triangle at offset 100 (past the buffer end) makes the load PANIC
(out-of-bounds slice), not return a format error — refuting "any index or
offset that exceeds the buffer size ... is reported as a format error ...
no decoding operation panics". -/
theorem claim1_counterexample :
    MD2.load c1buf = .panicked ∧ ∀ s, MD2.load c1buf ≠ .fmtErr s := by
  constructor
  · decide
  · intro s h
    rw [show MD2.load c1buf = .panicked from by decide] at h
    cases h

/-- C1, amended: a record read at a section offset that lies within the
buffer but with fewer remaining bytes than one record is reported as a
format error; but a section offset strictly past the buffer end is an
out-of-bounds slice panic, and a triangle texcoord index outside the
texcoord table is an out-of-bounds `Vec` index panic — neither of those is
converted to a format error. -/
theorem claim1_amended :
    (∀ data h, 1 ≤ h.num_tris → 0 ≤ h.offset_tris →
      h.offset_tris.toNat ≤ data.length →
      data.length < h.offset_tris.toNat + 12 →
      MD2.load_triangles data h = .fmtErr "Not enough bytes for triangle") ∧
    (∀ data h, 1 ≤ h.num_tris → 0 ≤ h.offset_tris →
      data.length < h.offset_tris.toNat →
      MD2.load_triangles data h = .panicked) ∧
    (∀ data h, h.num_st = 0 → h.offset_st = 0 →
      MD2.load_texcoords data h [⟨[0, 0, 0], [0, 0, 0]⟩] = .panicked) := by
  refine ⟨?_, ?_, ?_⟩
  · intro data h hn ho hin hshort
    have hnn : ¬ h.num_tris < 0 := by omega
    have hon : ¬ h.offset_tris < 0 := by omega
    obtain ⟨m, hm⟩ : ∃ m, h.num_tris.toNat = m + 1 :=
      ⟨h.num_tris.toNat - 1, by omega⟩
    simp only [MD2.load_triangles, usizeOfI32, if_neg hnn, if_neg hon,
      mres_ok_bind, hm, load_triangles_go_succ]
    rw [show h.offset_tris.toNat + 0 * 12 = h.offset_tris.toNat by omega]
    rw [show sliceFrom data h.offset_tris.toNat = .ok (data.drop h.offset_tris.toNat)
      from by simp [sliceFrom, hin]]
    rw [mres_ok_bind]
    rw [show Triangle.from_bytes (data.drop h.offset_tris.toNat) =
      .fmtErr "Not enough bytes for triangle" from by
        simp only [Triangle.from_bytes, List.length_drop]
        rw [if_pos (by omega)]]
    rfl
  · intro data h hn ho hout
    have hnn : ¬ h.num_tris < 0 := by omega
    have hon : ¬ h.offset_tris < 0 := by omega
    obtain ⟨m, hm⟩ : ∃ m, h.num_tris.toNat = m + 1 :=
      ⟨h.num_tris.toNat - 1, by omega⟩
    simp only [MD2.load_triangles, usizeOfI32, if_neg hnn, if_neg hon,
      mres_ok_bind, hm, load_triangles_go_succ]
    rw [show h.offset_tris.toNat + 0 * 12 = h.offset_tris.toNat by omega]
    rw [show sliceFrom data h.offset_tris.toNat = .panicked from by
      simp only [sliceFrom]
      rw [if_neg (by omega)]]
    rfl
  · intro data h hst ho
    simp only [MD2.load_texcoords, usizeOfI32, hst, ho]
    rw [if_neg (by omega), if_neg (by omega)]
    simp only [mres_ok_bind]
    rw [show (0 : Int).toNat = 0 from rfl, load_st_go_zero, mres_ok_bind,
      scale_st_cons]
    rfl

/-- C1, witness for the amended theorem: concrete instances of the
in-bounds short read (format error) and of the two panic modes. -/
theorem claim1_witness :
    MD2.load_triangles c4buf
      ⟨0, 0, 0, 0, 0, 0, 0, 0, 1, 0, 0, 0, 0, 60, 0, 0, 0⟩ =
      .fmtErr "Not enough bytes for triangle" ∧
    MD2.load_triangles c4buf
      ⟨0, 0, 0, 0, 0, 0, 0, 0, 1, 0, 0, 0, 0, 100, 0, 0, 0⟩ = .panicked ∧
    MD2.load_texcoords c4buf c4hdr [⟨[0, 0, 0], [0, 0, 0]⟩] = .panicked := by
  refine ⟨claim1_amended.1 c4buf _ (by decide) (by decide) (by decide) (by decide),
    claim1_amended.2.1 c4buf _ (by decide) (by decide) (by decide),
    claim1_amended.2.2 c4buf c4hdr (by decide) (by decide)⟩

/-- Taking the digit/control-free prefix of `stem ++ suffix` yields `stem`
when `stem` is digit/control-free and `suffix` starts with a
digit/control (or is empty). -/
theorem takeWhile_stem (stem suffix : List Nat)
    (hstem : ∀ b ∈ stem, isDigitOrCtrlByte b = false)
    (hsuffix : ∀ b ∈ suffix, isDigitOrCtrlByte b = true) :
    (stem ++ suffix).takeWhile (fun b => !(isDigitOrCtrlByte b)) = stem := by
  induction stem with
  | nil =>
    cases suffix with
    | nil => rfl
    | cons s ss =>
      have := hsuffix s (by simp)
      simp [List.takeWhile, this]
  | cons a t ih =>
    have ha := hstem a (by simp)
    simp only [List.cons_append, List.takeWhile, ha]
    show a :: (t ++ suffix).takeWhile (fun b => !(isDigitOrCtrlByte b)) = a :: t
    rw [ih (fun b hb => hstem b (by simp [hb]))]

/-- Dropping while a predicate holds over a list it holds throughout skips
to the second part. -/
theorem dropWhile_append_all (p : Nat → Bool) (l1 l2 : List Nat)
    (h : ∀ b ∈ l1, p b = true) :
    (l1 ++ l2).dropWhile p = l2.dropWhile p := by
  induction l1 with
  | nil => rfl
  | cons a t ih =>
    have ha := h a (by simp)
    simp only [List.cons_append, List.dropWhile, ha]
    exact ih (fun b hb => h b (by simp [hb]))

/-- C3, counterexample: for the 16-byte name field "a1b" + 13 NULs, the
decoder's clip name ("a", truncated at the FIRST digit) differs from the
name obtained by trimming only trailing digits/controls ("a1b") — the
embedded digit is not preserved, refuting the claim. -/
theorem claim3_counterexample :
    Frame.get_name ⟨[], [], c3name⟩ ≠ trim_trailing c3name ∧
    c3name.length = 16 ∧
    Frame.get_name ⟨[], [], c3name⟩ = [97] ∧
    trim_trailing c3name = [97, 49, 98] := by
  refine ⟨by decide, by decide, by decide, by decide⟩

/-- C3, amended: the decoder truncates the 16-byte name field at the FIRST
ascii digit or control character; for a field consisting of a
digit/control-free stem followed by a run of digits/controls (the legacy
naming convention, e.g. "attack12" + NUL padding) this equals the stem and
so coincides with trailing trimming, but embedded digits before other
characters cut the name short instead of being preserved. -/
theorem claim3_amended (stem suffix : List Nat)
    (hstem : ∀ b ∈ stem, isDigitOrCtrlByte b = false)
    (hsuffix : ∀ b ∈ suffix, isDigitOrCtrlByte b = true)
    (hlen : stem.length + suffix.length = 16) :
    Frame.get_name ⟨[], [], stem ++ suffix⟩ = stem ∧
    trim_trailing (stem ++ suffix) = stem := by
  constructor
  · exact takeWhile_stem stem suffix hstem hsuffix
  · show ((stem ++ suffix).reverse.dropWhile (fun b => isDigitOrCtrlByte b)).reverse = stem
    rw [List.reverse_append]
    rw [dropWhile_append_all _ suffix.reverse stem.reverse
      (fun b hb => hsuffix b (List.mem_reverse.mp hb))]
    cases hrev : stem.reverse with
    | nil =>
      have : stem = [] := by
        have := congrArg List.reverse hrev
        simpa using this
      simp [this]
    | cons a t =>
      have ha : isDigitOrCtrlByte a = false := by
        refine hstem a ?_
        have : a ∈ stem.reverse := by simp [hrev]
        exact List.mem_reverse.mp this
      simp only [List.dropWhile, ha]
      have h2 := congrArg List.reverse hrev
      simp only [List.reverse_reverse] at h2
      rw [h2]

/-- C3, witness for the amended theorem: "run" ++ "1" + 12 NULs trims to
"run" under both rules. -/
theorem claim3_witness :
    Frame.get_name ⟨[], [], [114, 117, 110] ++ ([49] ++ List.replicate 12 0)⟩ =
      [114, 117, 110] ∧
    trim_trailing ([114, 117, 110] ++ ([49] ++ List.replicate 12 0)) =
      [114, 117, 110] :=
  claim3_amended [114, 117, 110] ([49] ++ List.replicate 12 0)
    (by decide) (by decide) (by decide)

theorem vecIndex_eq_ok {α : Type} (l : List α) (i : Nat) (a : α)
    (h : l.get? i = some a) : vecIndex l i = .ok a := by
  unfold vecIndex
  rw [h]

/-- In-bounds `getD` as a `get?` value. -/
theorem get?_getD {α : Type} (l : List α) (i : Nat) (d : α)
    (h : i < l.length) : l.get? i = some (l.getD i d) := by
  induction l generalizing i with
  | nil => cases h
  | cons a t ih =>
    cases i with
    | zero => rfl
    | succ j =>
      simp only [List.length_cons, Nat.succ_lt_succ_iff] at h
      exact ih j h

/-- An in-bounds `getD` value is a member. -/
theorem getD_mem {α : Type} (l : List α) (i : Nat) (d : α)
    (h : i < l.length) : l.getD i d ∈ l :=
  List.get?_mem (get?_getD l i d h)

/-- Interpolating a vector with itself is a no-op (exact in ℚ). -/
theorem lerp_self (a : V3) (t : ℚ) : V3.lerp a a t = a := by
  cases a
  simp [V3.lerp]

theorem map_range_getD (l : List V3) (d : V3) :
    (List.range l.length).map (fun i => l.getD i d) = l := by
  induction l with
  | nil => rfl
  | cons a t ih =>
    simp only [List.length_cons, List.range_succ_eq_map, List.map_cons,
      List.map_map]
    rw [show (a :: t).getD 0 d = a from rfl]
    rw [show ((fun i => (a :: t).getD i d) ∘ Nat.succ) = fun i => t.getD i d
      from funext (fun i => rfl)]
    rw [ih]

/-- `currClip` after selecting a clip. -/
theorem currClip_set_anim (c : MD2Component) (i : Nat) :
    currClip (c.set_anim_idx i) = c.md2.animations.getD i ⟨[], []⟩ := rfl

/-- The exact behaviour of one `animate` tick on a valid state. -/
theorem animate_spec (c : MD2Component) (δ : ℚ)
    (hidx : c.anim_idx < c.md2.animations.length)
    (hne : (currClip c).key_frames ≠ [])
    (huni : ∀ k1 ∈ (currClip c).key_frames, ∀ k2 ∈ (currClip c).key_frames,
      k1.length = k2.length)
    (hcf : c.curr_frame < (currClip c).key_frames.length) :
    ∃ out, c.animate δ =
      if 1 ≤ c.interp + 8 * δ then
        .ok ({c with
          curr_frame := (c.curr_frame + 1) % (currClip c).key_frames.length,
          interp := 0}, out)
      else .ok ({c with interp := c.interp + 8 * δ}, out) := by
  have hget : c.md2.animations.get? c.anim_idx = some (currClip c) :=
    get?_getD _ _ _ hidx
  have hn : 0 < (currClip c).key_frames.length := List.length_pos.mpr hne
  have hnext : (c.curr_frame + 1) % (currClip c).key_frames.length <
      (currClip c).key_frames.length := Nat.mod_lt _ hn
  simp only [MD2Component.animate, vecIndex_eq_ok _ _ _ hget, mres_ok_bind]
  rw [if_neg (by omega)]
  by_cases hw : 1 ≤ c.interp + 8 * δ
  · rw [if_pos hw]
    simp only [if_pos hw]
    have hi2lt : ((c.curr_frame + 1) % (currClip c).key_frames.length + 1) %
        (currClip c).key_frames.length < (currClip c).key_frames.length :=
      Nat.mod_lt _ hn
    have hc1 := get?_getD (currClip c).key_frames _ ([] : List V3) hnext
    have hc2 := get?_getD (currClip c).key_frames _ ([] : List V3) hi2lt
    simp only [vecIndex_eq_ok _ _ _ hc1, vecIndex_eq_ok _ _ _ hc2, mres_ok_bind]
    have hlen12 := huni _ (getD_mem _ _ ([] : List V3) hnext) _
      (getD_mem _ _ ([] : List V3) hi2lt)
    rw [if_neg (by omega)]
    exact ⟨_, rfl⟩
  · rw [if_neg hw]
    simp only [if_neg hw]
    have hc1 := get?_getD (currClip c).key_frames _ ([] : List V3) hcf
    have hc2 := get?_getD (currClip c).key_frames _ ([] : List V3) hnext
    simp only [vecIndex_eq_ok _ _ _ hc1, vecIndex_eq_ok _ _ _ hc2, mres_ok_bind]
    have hlen12 := huni _ (getD_mem _ _ ([] : List V3) hcf) _
      (getD_mem _ _ ([] : List V3) hnext)
    rw [if_neg (by omega)]
    exact ⟨_, rfl⟩

/-- Selecting a valid clip preserves the playback invariant. -/
theorem playInv_set_anim (c : MD2Component) (i : Nat) (hInv : PlayInv c)
    (hi : i < c.md2.animations.length) : PlayInv (c.set_anim_idx i) := by
  obtain ⟨_, hne, huni, _, _, _⟩ := hInv
  refine ⟨hi, hne, huni, ?_, le_rfl, show (0 : ℚ) < 1 by norm_num⟩
  rw [currClip_set_anim]
  exact List.length_pos.mpr (hne _ (getD_mem _ _ _ hi))

/-- One valid tick preserves the playback invariant. -/
theorem playInv_animate (c : MD2Component) (δ : ℚ) (hInv : PlayInv c)
    (hδ : 0 ≤ δ) :
    ∃ c2 out, c.animate δ = .ok (c2, out) ∧ PlayInv c2 ∧
      c2.md2 = c.md2 := by
  obtain ⟨hidx, hne, huni, hcf, hip0, hip1⟩ := hInv
  have hclip_mem : currClip c ∈ c.md2.animations := getD_mem _ _ _ hidx
  obtain ⟨out, hout⟩ := animate_spec c δ hidx (hne _ hclip_mem)
    (huni _ hclip_mem) hcf
  by_cases hw : 1 ≤ c.interp + 8 * δ
  · rw [if_pos hw] at hout
    refine ⟨_, out, hout, ⟨hidx, hne, huni, ?_, le_rfl, by norm_num⟩, rfl⟩
    exact Nat.mod_lt _ (List.length_pos.mpr (hne _ hclip_mem))
  · rw [if_neg hw] at hout
    refine ⟨_, out, hout, ⟨hidx, hne, huni, hcf, ?_, ?_⟩, rfl⟩
    · show (0 : ℚ) ≤ c.interp + 8 * δ
      have h8 : (0 : ℚ) ≤ 8 * δ := by positivity
      linarith
    · show c.interp + 8 * δ < 1
      exact lt_of_not_le hw

/-- C6: under valid actions the playback invariant (factor in [0,1), frame
cursor within the current clip) is preserved by every sequence of
selectClip/advance calls; a tick whose incremented factor reaches 1.0
advances the frame cursor by one modulo the clip's frame count and resets
the factor to 0; selectClip always resets cursor and factor to zero. -/
theorem claim6_theorem :
    (∀ c acts, PlayInv c →
      (∀ a ∈ acts, actOK c.md2.animations.length a = true) →
      ∃ c2, runActs c acts = .ok c2 ∧ PlayInv c2) ∧
    (∀ c δ, PlayInv c → 0 ≤ δ → 1 ≤ c.interp + 8 * δ →
      ∃ out, c.animate δ = .ok ({c with
        curr_frame := (c.curr_frame + 1) % (currClip c).key_frames.length,
        interp := 0}, out)) ∧
    (∀ (c : MD2Component) (i : Nat),
      (c.set_anim_idx i).curr_frame = 0 ∧ (c.set_anim_idx i).interp = 0) := by
  refine ⟨?_, ?_, ?_⟩
  · intro c acts
    induction acts generalizing c with
    | nil =>
      intro hInv _
      exact ⟨c, rfl, hInv⟩
    | cons a rest ih =>
      intro hInv hacts
      cases a with
      | select i =>
        have hi : i < c.md2.animations.length := by
          have h1 := hacts _ (List.mem_cons_self _ _)
          exact of_decide_eq_true h1
        have hInv2 := playInv_set_anim c i hInv hi
        obtain ⟨c2, hrun, hInv3⟩ := ih (c.set_anim_idx i) hInv2
          (fun a ha => hacts a (by simp [ha]))
        exact ⟨c2, hrun, hInv3⟩
      | adv δ =>
        have hδ : (0 : ℚ) ≤ δ := by
          have h1 := hacts _ (List.mem_cons_self _ _)
          exact of_decide_eq_true h1
        obtain ⟨c1, out, hstep, hInv1, hmd2⟩ := playInv_animate c δ hInv hδ
        obtain ⟨c2, hrun, hInv2⟩ := ih c1 hInv1
          (fun a ha => by rw [hmd2]; exact hacts a (by simp [ha]))
        refine ⟨c2, ?_, hInv2⟩
        simp only [runActs, hstep, MResult.bind]
        exact hrun
  · intro c δ hInv hδ hw
    obtain ⟨hidx, hne, huni, hcf, _, _⟩ := hInv
    have hclip_mem : currClip c ∈ c.md2.animations := getD_mem _ _ _ hidx
    obtain ⟨out, hout⟩ := animate_spec c δ hidx (hne _ hclip_mem)
      (huni _ hclip_mem) hcf
    rw [if_pos hw] at hout
    exact ⟨out, hout⟩
  · intro c i
    exact ⟨rfl, rfl⟩

/-- C6, witness: a concrete two-keyframe component stepped through a
select and two advances keeps the invariant; a unit-delta tick wraps. -/
theorem claim6_witness :
    (∃ c2, runActs cW [Act.select 0, Act.adv 0, Act.adv 1] = .ok c2 ∧
      PlayInv c2) ∧
    (∃ out, cW.animate 1 = .ok ({cW with
      curr_frame := (cW.curr_frame + 1) % (currClip cW).key_frames.length,
      interp := 0}, out)) ∧
    (cW.set_anim_idx 0).curr_frame = 0 ∧ (cW.set_anim_idx 0).interp = 0 :=
  ⟨claim6_theorem.1 cW [Act.select 0, Act.adv 0, Act.adv 1]
    (by decide) (by decide),
   claim6_theorem.2.1 cW 1 (by decide) (by norm_num)
     (show (1 : ℚ) ≤ 0 + 8 * 1 by norm_num),
   claim6_theorem.2.2 cW 0⟩

/-- C7: for a clip holding exactly one keyframe, every advance — whatever
the delta and whatever state preceding ticks left (the frame cursor of a
single-keyframe clip is always 0) — returns exactly that keyframe's vertex
values: interpolating the frame with itself is a no-op. -/
theorem claim7_theorem (c : MD2Component) (a : Animation) (kf : List V3)
    (δ : ℚ) (ha : c.md2.animations.get? c.anim_idx = some a)
    (hkf : a.key_frames = [kf]) (hcf : c.curr_frame = 0) :
    ∃ q, c.animate δ = .ok ({c with interp := q, curr_frame := 0}, kf) := by
  have hlerp : ∀ t : ℚ, (List.range kf.length).map
      (fun i => V3.lerp (kf.getD i ⟨0, 0, 0⟩) (kf.getD i ⟨0, 0, 0⟩) t) = kf := by
    intro t
    rw [show (fun i => V3.lerp (kf.getD i ⟨0, 0, 0⟩) (kf.getD i ⟨0, 0, 0⟩) t) =
      fun i => kf.getD i ⟨0, 0, 0⟩ from funext (fun i => lerp_self _ _)]
    exact map_range_getD kf _
  simp only [MD2Component.animate, vecIndex_eq_ok _ _ _ ha, mres_ok_bind, hkf]
  rw [if_neg (by simp)]
  by_cases hw : 1 ≤ c.interp + 8 * δ
  · simp only [if_pos hw, List.length_singleton, Nat.mod_one]
    rw [vecIndex_eq_ok ([kf]) 0 kf rfl]
    simp only [mres_ok_bind]
    rw [if_neg (by omega)]
    exact ⟨0, by rw [hlerp 0]⟩
  · simp only [if_neg hw, List.length_singleton, Nat.mod_one, hcf]
    rw [vecIndex_eq_ok ([kf]) 0 kf rfl]
    simp only [mres_ok_bind]
    rw [if_neg (by omega)]
    exact ⟨c.interp + 8 * δ, by rw [hlerp (c.interp + 8 * δ)]⟩

/-- C7, witness: a concrete single-keyframe component returns its keyframe
for a large delta. -/
theorem claim7_witness :
    ∃ q, MD2Component.animate
      (MD2Component.mk ⟨[⟨[114], [[⟨1, 2, 3⟩]]⟩], []⟩ 0 0 0) 5 =
      .ok (MD2Component.mk ⟨[⟨[114], [[⟨1, 2, 3⟩]]⟩], []⟩ 0 0 q, [⟨1, 2, 3⟩]) :=
  claim7_theorem (MD2Component.mk ⟨[⟨[114], [[⟨1, 2, 3⟩]]⟩], []⟩ 0 0 0)
    ⟨[114], [[⟨1, 2, 3⟩]]⟩ [⟨1, 2, 3⟩] 5 (by decide) (by decide) (by decide)

theorem mres_bind_assoc {α β γ : Type} (m : MResult α) (f : α → MResult β)
    (g : β → MResult γ) : (m >>= f) >>= g = m >>= fun a => f a >>= g := by
  cases m <;> rfl

theorem mres_bind_congr {α β : Type} (m : MResult α) (f g : α → MResult β)
    (h : ∀ a, f a = g a) : m >>= f = m >>= g := by
  cases m with
  | ok a => exact h a
  | fmtErr s => rfl
  | panicked => rfl

theorem groupTail_nil (key_frames : List (List V3)) (anims : List Animation)
    (last : Option (List Nat)) :
    groupTail [] key_frames anims last =
      if key_frames.isEmpty then .ok anims
      else match last with
        | some nm => .ok (anims ++ [⟨nm, key_frames⟩])
        | none => .panicked := by
  rw [groupTail.eq_def]

theorem groupTail_cons (nm : List Nat) (kf : List V3)
    (rest : List (List Nat × List V3)) (key_frames : List (List V3))
    (anims : List Animation) (last : Option (List Nat)) :
    groupTail ((nm, kf) :: rest) key_frames anims last =
      match last with
      | some prev =>
        if prev ≠ nm then
          groupTail rest [kf] (anims ++ [⟨prev, key_frames⟩]) (some nm)
        else groupTail rest (key_frames ++ [kf]) anims (some nm)
      | none => groupTail rest (key_frames ++ [kf]) anims (some nm) := by
  rw [groupTail.eq_def]

theorem groupTail_cons_some (nm : List Nat) (kf : List V3)
    (rest : List (List Nat × List V3)) (key_frames : List (List V3))
    (anims : List Animation) (prev : List Nat) :
    groupTail ((nm, kf) :: rest) key_frames anims (some prev) =
      if prev ≠ nm then
        groupTail rest [kf] (anims ++ [⟨prev, key_frames⟩]) (some nm)
      else groupTail rest (key_frames ++ [kf]) anims (some nm) := by
  rw [groupTail.eq_def]

theorem groupTail_cons_none (nm : List Nat) (kf : List V3)
    (rest : List (List Nat × List V3)) (key_frames : List (List V3))
    (anims : List Animation) :
    groupTail ((nm, kf) :: rest) key_frames anims none =
      groupTail rest (key_frames ++ [kf]) anims (some nm) := by
  rw [groupTail.eq_def]

theorem chunksSpec_nil : chunksSpec [] = [] := rfl

theorem chunksSpec_cons (nm : List Nat) (kf : List V3)
    (rest : List (List Nat × List V3)) :
    chunksSpec ((nm, kf) :: rest) = consChunk nm kf (chunksSpec rest) := by
  rw [chunksSpec.eq_def, consChunk.eq_def]

/-- A singleton pending chunk merges exactly like one chunking step. -/
theorem mergeChunk_single (nm : List Nat) (kf : List V3)
    (cl : List Animation) : mergeChunk nm [kf] cl = consChunk nm kf cl := by
  cases cl with
  | nil => rfl
  | cons a tail =>
    by_cases hname : a.name = nm
    · simp [mergeChunk, consChunk, hname]
    · simp [mergeChunk, consChunk, hname]

/-- Appending one keyframe to the pending chunk commutes with merging. -/
theorem mergeChunk_snoc (nm : List Nat) (kf : List V3)
    (kfs : List (List V3)) (cl : List Animation) :
    mergeChunk nm (kfs ++ [kf]) cl = mergeChunk nm kfs (consChunk nm kf cl) := by
  cases cl with
  | nil => simp [mergeChunk, consChunk]
  | cons a tail =>
    by_cases hname : a.name = nm
    · simp [mergeChunk, consChunk, hname, List.append_assoc]
    · simp [mergeChunk, consChunk, hname, List.append_assoc]

/-- Merging a pending chunk with a different name prepends it whole. -/
theorem mergeChunk_ne (nm nm2 : List Nat) (kf : List V3)
    (kfs : List (List V3)) (cl : List Animation) (h : nm ≠ nm2) :
    mergeChunk nm kfs (consChunk nm2 kf cl) =
      ⟨nm, kfs⟩ :: consChunk nm2 kf cl := by
  cases cl with
  | nil => simp [mergeChunk, consChunk, Ne.symm h]
  | cons a tail =>
    by_cases hname : a.name = nm2
    · simp [mergeChunk, consChunk, hname, Ne.symm h]
    · simp [mergeChunk, consChunk, hname, Ne.symm h]

/-- The grouping loop with a nonempty pending chunk named `nm` prepends
that chunk (merged with the first chunk of the remainder when the names
agree). -/
theorem groupTail_some (l : List (List Nat × List V3)) :
    ∀ kfs anims nm, kfs ≠ [] →
      groupTail l kfs anims (some nm) =
        .ok (anims ++ mergeChunk nm kfs (chunksSpec l)) := by
  induction l with
  | nil =>
    intro kfs anims nm hne
    rw [groupTail_nil, if_neg (by simpa [List.isEmpty_iff] using hne)]
    rfl
  | cons p rest ih =>
    intro kfs anims nm hne
    obtain ⟨nm2, kf⟩ := p
    by_cases heq : nm = nm2
    · subst heq
      rw [groupTail_cons_some, if_neg (by simp)]
      rw [ih (kfs ++ [kf]) anims nm (by simp)]
      rw [chunksSpec_cons, mergeChunk_snoc]
    · rw [groupTail_cons_some, if_pos (by simpa using heq)]
      rw [ih [kf] (anims ++ [Animation.mk nm kfs]) nm2 (by simp)]
      rw [chunksSpec_cons, mergeChunk_single, mergeChunk_ne nm nm2 kf kfs _ heq]
      rw [List.append_assoc]
      rfl

/-- The grouping loop started empty produces exactly the adjacent-name
chunking. -/
theorem groupTail_none (l : List (List Nat × List V3)) (anims : List Animation) :
    groupTail l [] anims none = .ok (anims ++ chunksSpec l) := by
  cases l with
  | nil =>
    rw [groupTail_nil]
    simp [chunksSpec_nil]
  | cons p rest =>
    obtain ⟨nm, kf⟩ := p
    rw [groupTail_cons_none]
    show groupTail rest [kf] anims (some nm) = _
    rw [groupTail_some rest [kf] anims nm (by simp)]
    rw [chunksSpec_cons, mergeChunk_single]

/-- The animation loop is the flat frame parse followed by the pure
grouping. -/
theorem load_anims_go_eq (data : List Nat) (tris : List Triangle)
    (nxyz : Nat) :
    ∀ n off kfs anims last,
      load_anims_go data tris nxyz n off kfs anims last =
        frames_seq_go data tris nxyz n off >>=
          (fun l => groupTail l kfs anims last) := by
  intro n
  induction n with
  | zero =>
    intro off kfs anims last
    rw [load_anims_go_zero, frames_seq_go_zero, mres_ok_bind, groupTail_nil]
  | succ n ih =>
    intro off kfs anims last
    rw [load_anims_go_succ, frames_seq_go_succ]
    cases h1 : sliceFrom data off with
    | fmtErr s => rfl
    | panicked => rfl
    | ok slice =>
    rw [mres_ok_bind, mres_ok_bind]
    cases h2 : Frame.from_bytes slice with
    | fmtErr s => rfl
    | panicked => rfl
    | ok frame =>
    rw [mres_ok_bind, mres_ok_bind]
    cases h3 : sliceFrom data (off + 40) with
    | fmtErr s => rfl
    | panicked => rfl
    | ok slice2 =>
    rw [mres_ok_bind, mres_ok_bind]
    cases h4 : MD2.read_and_decompress_vertices slice2 nxyz frame tris with
    | fmtErr s => rfl
    | panicked => rfl
    | ok verts =>
    rw [mres_ok_bind, mres_ok_bind]
    cases last with
    | none =>
      show load_anims_go data tris nxyz n (off + 40 + nxyz * 4)
        (kfs ++ [verts]) anims (some frame.get_name) = _
      rw [ih, mres_bind_assoc]
      refine mres_bind_congr _ _ _ (fun l => ?_)
      rw [mres_pure, mres_ok_bind, groupTail_cons_none]
    | some prev =>
      show (if prev ≠ frame.get_name then
          load_anims_go data tris nxyz n (off + 40 + nxyz * 4)
            [verts] (anims ++ [⟨prev, kfs⟩]) (some frame.get_name)
        else load_anims_go data tris nxyz n (off + 40 + nxyz * 4)
          (kfs ++ [verts]) anims (some frame.get_name)) = _
      by_cases hp : prev ≠ frame.get_name
      · rw [if_pos hp, ih, mres_bind_assoc]
        refine mres_bind_congr _ _ _ (fun l => ?_)
        rw [mres_pure, mres_ok_bind, groupTail_cons_some, if_pos hp]
      · rw [if_neg hp, ih, mres_bind_assoc]
        refine mres_bind_congr _ _ _ (fun l => ?_)
        rw [mres_pure, mres_ok_bind, groupTail_cons_some, if_neg hp]

/-- Every chunk produced by the adjacent-name chunking is nonempty. -/
theorem chunksSpec_ne_nil (l : List (List Nat × List V3)) :
    ∀ a ∈ chunksSpec l, a.key_frames ≠ [] := by
  induction l with
  | nil =>
    intro a ha
    simp [chunksSpec_nil] at ha
  | cons p rest ih =>
    obtain ⟨nm, kf⟩ := p
    intro a ha
    rw [chunksSpec_cons] at ha
    cases hc : chunksSpec rest with
    | nil =>
      rw [hc] at ha
      simp only [consChunk] at ha
      simp only [List.mem_singleton] at ha
      subst ha
      simp
    | cons b tail =>
      rw [hc] at ha
      by_cases hname : b.name = nm
      · rw [show consChunk nm kf (b :: tail) =
            ⟨nm, kf :: b.key_frames⟩ :: tail from by
          simp [consChunk, hname]] at ha
        rcases List.mem_cons.mp ha with h1 | h1
        · subst h1
          simp
        · exact ih a (by rw [hc]; exact List.mem_cons_of_mem _ h1)
      · rw [show consChunk nm kf (b :: tail) =
            ⟨nm, [kf]⟩ :: b :: tail from by
          simp [consChunk, hname]] at ha
        rcases List.mem_cons.mp ha with h1 | h1
        · subst h1
          simp
        · exact ih a (by rw [hc]; exact h1)

/-- `load_animations` succeeds exactly by chunking the parsed frame
sequence on adjacent equal trimmed names. -/
theorem load_animations_eq_chunks (data : List Nat) (h : Header)
    (tris : List Triangle) (anims : List Animation)
    (hload : MD2.load_animations data h tris = .ok anims) :
    ∃ l, frames_seq data h tris = .ok l ∧ anims = chunksSpec l := by
  simp only [MD2.load_animations] at hload
  obtain ⟨nxyz, hx, hload2⟩ := mres_bind_ok hload
  obtain ⟨fo, hfo, hload3⟩ := mres_bind_ok hload2
  rw [load_anims_go_eq] at hload3
  obtain ⟨l, hfs, hgt⟩ := mres_bind_ok hload3
  rw [groupTail_none] at hgt
  refine ⟨l, ?_, ?_⟩
  · simp only [frames_seq, hx, hfo, mres_ok_bind]
    exact hfs
  · have := mres_ok_inj hgt
    simp only [List.nil_append] at this
    exact this.symm

/-- C8: clip grouping — decoded animations are exactly the chunking of the
parsed frame sequence by adjacent equal trimmed names (so consecutive
frames with equal names share a clip, a name change starts a new clip,
and the final clip is flushed after the last frame); every produced clip
has at least one keyframe; and raw names ["run1","run2","idle1"] yield
exactly clips "run" (2 keyframes) and "idle" (1 keyframe). -/
theorem claim8_theorem :
    (∀ data h tris anims, MD2.load_animations data h tris = .ok anims →
      ∃ l, frames_seq data h tris = .ok l ∧ anims = chunksSpec l) ∧
    (∀ data h tris anims, MD2.load_animations data h tris = .ok anims →
      ∀ a ∈ anims, a.key_frames ≠ []) ∧
    MD2.load_animations c8buf c8hdr [] =
      .ok [⟨[114, 117, 110], [[], []]⟩, ⟨[105, 100, 108, 101], [[]]⟩] := by
  refine ⟨load_animations_eq_chunks, ?_, by decide⟩
  intro data h tris anims hload a ha
  obtain ⟨l, _, hchunks⟩ := load_animations_eq_chunks data h tris anims hload
  subst hchunks
  exact chunksSpec_ne_nil l a ha

/-- C8, witness: the concrete "run1"/"run2"/"idle1" buffer's clip list is
the chunking of its parsed frame sequence. -/
theorem claim8_witness :
    ∃ l, frames_seq c8buf c8hdr [] = .ok l ∧
      ([⟨[114, 117, 110], [[], []]⟩, ⟨[105, 100, 108, 101], [[]]⟩] :
        List Animation) = chunksSpec l :=
  claim8_theorem.1 c8buf c8hdr []
    [⟨[114, 117, 110], [[], []]⟩, ⟨[105, 100, 108, 101], [[]]⟩] (by decide)

/-! ## Byte-agreement congruence lemmas (for claim C9) -/

theorem byteAt_drop (l : List Nat) (off i : Nat) :
    byteAt (l.drop off) i = byteAt l (off + i) := by
  induction off generalizing l with
  | zero =>
    rw [Nat.zero_add]
    rfl
  | succ n ih =>
    cases l with
    | nil => rfl
    | cons a t =>
      show byteAt (t.drop n) i = byteAt (a :: t) (n + 1 + i)
      rw [ih]
      rw [show n + 1 + i = (n + i) + 1 by omega]
      rfl

theorem get?_congr (l1 l2 : List Nat) (i : Nat) (hl : l1.length = l2.length)
    (hb : byteAt l1 i = byteAt l2 i) : l1.get? i = l2.get? i := by
  rcases Nat.lt_or_ge i l1.length with h | h
  · rw [get?_getD l1 i 0 h, get?_getD l2 i 0 (hl ▸ h)]
    exact congrArg some hb
  · rw [List.get?_eq_none.mpr h, List.get?_eq_none.mpr (hl ▸ h)]

/-- Two equal-length buffers agreeing on `[off, off + n)` have equal
`n`-byte slices there. -/
theorem take_drop_congr (d1 d2 : List Nat) (off n : Nat)
    (hl : d1.length = d2.length)
    (hb : ∀ i, i < n → byteAt d1 (off + i) = byteAt d2 (off + i)) :
    (d1.drop off).take n = (d2.drop off).take n := by
  apply List.ext
  intro i
  rcases Nat.lt_or_ge i n with h | h
  · rw [List.get?_take h, List.get?_take h, List.get?_drop, List.get?_drop]
    refine get?_congr d1 d2 (off + i) hl (hb i h)
  · have h1 : ((d1.drop off).take n).length ≤ i := by
      simp only [List.length_take]
      omega
    have h2 : ((d2.drop off).take n).length ≤ i := by
      simp only [List.length_take]
      omega
    rw [List.get?_eq_none.mpr h1, List.get?_eq_none.mpr h2]

theorem readU16_congr (d1 d2 : List Nat) (off j : Nat)
    (hb : ∀ i, i < j + 2 → byteAt d1 (off + i) = byteAt d2 (off + i)) :
    readU16 (d1.drop off) j = readU16 (d2.drop off) j := by
  simp only [readU16, byteAt_drop]
  rw [hb j (by omega), hb (j + 1) (by omega)]

theorem readI16_congr (d1 d2 : List Nat) (off j : Nat)
    (hb : ∀ i, i < j + 2 → byteAt d1 (off + i) = byteAt d2 (off + i)) :
    readI16 (d1.drop off) j = readI16 (d2.drop off) j := by
  simp only [readI16]
  rw [readU16_congr d1 d2 off j hb]

theorem readU32_congr (d1 d2 : List Nat) (off j : Nat)
    (hb : ∀ i, i < j + 4 → byteAt d1 (off + i) = byteAt d2 (off + i)) :
    readU32 (d1.drop off) j = readU32 (d2.drop off) j := by
  simp only [readU32, byteAt_drop]
  rw [hb j (by omega), hb (j + 1) (by omega), hb (j + 2) (by omega),
    hb (j + 3) (by omega)]

theorem decodeF32_congr (d1 d2 : List Nat) (off j : Nat)
    (hb : ∀ i, i < j + 4 → byteAt d1 (off + i) = byteAt d2 (off + i)) :
    decodeF32 (d1.drop off) j = decodeF32 (d2.drop off) j := by
  simp only [decodeF32]
  rw [readU32_congr d1 d2 off j hb]

theorem Triangle_from_bytes_congr (d1 d2 : List Nat) (off : Nat)
    (hl : d1.length = d2.length)
    (hb : ∀ i, i < 12 → byteAt d1 (off + i) = byteAt d2 (off + i)) :
    Triangle.from_bytes (d1.drop off) = Triangle.from_bytes (d2.drop off) := by
  have hmono : ∀ j, j + 2 ≤ 12 →
      ∀ i, i < j + 2 → byteAt d1 (off + i) = byteAt d2 (off + i) :=
    fun j hj i hi => hb i (by omega)
  simp only [Triangle.from_bytes, List.length_drop, hl]
  by_cases hlen : d2.length - off < 12
  · rw [if_pos hlen, if_pos hlen]
  · rw [if_neg hlen, if_neg hlen]
    rw [readU16_congr d1 d2 off 0 (hmono 0 (by omega)),
      readU16_congr d1 d2 off 2 (hmono 2 (by omega)),
      readU16_congr d1 d2 off 4 (hmono 4 (by omega)),
      readU16_congr d1 d2 off 6 (hmono 6 (by omega)),
      readU16_congr d1 d2 off 8 (hmono 8 (by omega)),
      readU16_congr d1 d2 off 10 (hmono 10 (by omega))]

theorem TexCoord_from_bytes_congr (d1 d2 : List Nat) (off : Nat)
    (hl : d1.length = d2.length)
    (hb : ∀ i, i < 4 → byteAt d1 (off + i) = byteAt d2 (off + i)) :
    TexCoord.from_bytes (d1.drop off) = TexCoord.from_bytes (d2.drop off) := by
  have hmono : ∀ j, j + 2 ≤ 4 →
      ∀ i, i < j + 2 → byteAt d1 (off + i) = byteAt d2 (off + i) :=
    fun j hj i hi => hb i (by omega)
  simp only [TexCoord.from_bytes, List.length_drop, hl]
  by_cases hlen : d2.length - off < 4
  · rw [if_pos hlen, if_pos hlen]
  · rw [if_neg hlen, if_neg hlen]
    rw [readI16_congr d1 d2 off 0 (hmono 0 (by omega)),
      readI16_congr d1 d2 off 2 (hmono 2 (by omega))]

theorem Frame_from_bytes_congr (d1 d2 : List Nat) (off : Nat)
    (hl : d1.length = d2.length)
    (hb : ∀ i, i < 40 → byteAt d1 (off + i) = byteAt d2 (off + i)) :
    Frame.from_bytes (d1.drop off) = Frame.from_bytes (d2.drop off) := by
  have hmono : ∀ j, j + 4 ≤ 40 →
      ∀ i, i < j + 4 → byteAt d1 (off + i) = byteAt d2 (off + i) :=
    fun j hj i hi => hb i (by omega)
  simp only [Frame.from_bytes, List.length_drop, hl]
  by_cases hlen : d2.length - off < 40
  · rw [if_pos hlen, if_pos hlen]
  · rw [if_neg hlen, if_neg hlen]
    rw [decodeF32_congr d1 d2 off 0 (hmono 0 (by omega)),
      decodeF32_congr d1 d2 off 4 (hmono 4 (by omega)),
      decodeF32_congr d1 d2 off 8 (hmono 8 (by omega)),
      decodeF32_congr d1 d2 off 12 (hmono 12 (by omega)),
      decodeF32_congr d1 d2 off 16 (hmono 16 (by omega)),
      decodeF32_congr d1 d2 off 20 (hmono 20 (by omega))]
    rw [show (d1.drop off).drop 24 = d1.drop (off + 24) from by
        rw [List.drop_drop],
      show (d2.drop off).drop 24 = d2.drop (off + 24) from by
        rw [List.drop_drop]]
    rw [take_drop_congr d1 d2 (off + 24) 16 hl
      (fun i hi => by
        rw [Nat.add_assoc]
        exact hb (24 + i) (by omega))]

theorem Header_from_bytes_congr (d1 d2 : List Nat)
    (hl : d1.length = d2.length)
    (hb : ∀ i, i < 68 → byteAt d1 i = byteAt d2 i) :
    Header.from_bytes d1 = Header.from_bytes d2 := by
  have h32 : ∀ j, j + 4 ≤ 68 → readI32 d1 j = readI32 d2 j := by
    intro j hj
    simp only [readI32, readU32]
    rw [hb j (by omega), hb (j + 1) (by omega), hb (j + 2) (by omega),
      hb (j + 3) (by omega)]
  simp only [Header.from_bytes, hl]
  by_cases hlen : d2.length < 68
  · rw [if_pos hlen, if_pos hlen]
  · rw [if_neg hlen, if_neg hlen]
    rw [h32 0 (by omega), h32 4 (by omega), h32 8 (by omega),
      h32 12 (by omega), h32 16 (by omega), h32 20 (by omega),
      h32 24 (by omega), h32 28 (by omega), h32 32 (by omega),
      h32 36 (by omega), h32 40 (by omega), h32 44 (by omega),
      h32 48 (by omega), h32 52 (by omega), h32 56 (by omega),
      h32 60 (by omega), h32 64 (by omega)]

theorem load_triangles_go_congr (d1 d2 : List Nat)
    (hl : d1.length = d2.length) (tris_off : Nat) :
    ∀ count i,
      (∀ p, tris_off + i * 12 ≤ p → p < tris_off + (i + count) * 12 →
        byteAt d1 p = byteAt d2 p) →
      load_triangles_go d1 tris_off count i =
        load_triangles_go d2 tris_off count i := by
  intro count
  induction count with
  | zero =>
    intro i _
    rw [load_triangles_go_zero, load_triangles_go_zero]
  | succ n ih =>
    intro i hb
    rw [load_triangles_go_succ, load_triangles_go_succ]
    by_cases hoff : tris_off + i * 12 ≤ d1.length
    · rw [show sliceFrom d1 (tris_off + i * 12) =
          .ok (d1.drop (tris_off + i * 12)) from by simp [sliceFrom, hoff],
        show sliceFrom d2 (tris_off + i * 12) =
          .ok (d2.drop (tris_off + i * 12)) from by simp [sliceFrom, hl ▸ hoff],
        mres_ok_bind, mres_ok_bind]
      rw [← Triangle_from_bytes_congr d1 d2 (tris_off + i * 12) hl
        (fun q hq => hb _ (by omega) (by
          have h12 : tris_off + i * 12 + q < tris_off + (i + 1) * 12 := by omega
          omega))]
      cases Triangle.from_bytes (d1.drop (tris_off + i * 12)) with
      | fmtErr s => rfl
      | panicked => rfl
      | ok t =>
        rw [mres_ok_bind, mres_ok_bind]
        rw [ih (i + 1) (fun p h1 h2 => hb p (by omega) (by
          have : (i + 1) + n = i + (n + 1) := by omega
          omega))]
    · rw [show sliceFrom d1 (tris_off + i * 12) = .panicked from by
          simp only [sliceFrom]
          rw [if_neg hoff],
        show sliceFrom d2 (tris_off + i * 12) = .panicked from by
          simp only [sliceFrom]
          rw [if_neg (hl ▸ hoff)]]
      rfl

theorem load_st_go_congr (d1 d2 : List Nat)
    (hl : d1.length = d2.length) (st_off : Nat) :
    ∀ count i,
      (∀ p, st_off + i * 4 ≤ p → p < st_off + (i + count) * 4 →
        byteAt d1 p = byteAt d2 p) →
      load_st_go d1 st_off count i = load_st_go d2 st_off count i := by
  intro count
  induction count with
  | zero =>
    intro i _
    rw [load_st_go_zero, load_st_go_zero]
  | succ n ih =>
    intro i hb
    rw [load_st_go_succ, load_st_go_succ]
    by_cases hoff : st_off + i * 4 ≤ d1.length
    · rw [show sliceFrom d1 (st_off + i * 4) =
          .ok (d1.drop (st_off + i * 4)) from by simp [sliceFrom, hoff],
        show sliceFrom d2 (st_off + i * 4) =
          .ok (d2.drop (st_off + i * 4)) from by simp [sliceFrom, hl ▸ hoff],
        mres_ok_bind, mres_ok_bind]
      rw [← TexCoord_from_bytes_congr d1 d2 (st_off + i * 4) hl
        (fun q hq => hb _ (by omega) (by
          have h4 : st_off + i * 4 + q < st_off + (i + 1) * 4 := by omega
          omega))]
      cases TexCoord.from_bytes (d1.drop (st_off + i * 4)) with
      | fmtErr s => rfl
      | panicked => rfl
      | ok t =>
        rw [mres_ok_bind, mres_ok_bind]
        rw [ih (i + 1) (fun p h1 h2 => hb p (by omega) (by
          have : (i + 1) + n = i + (n + 1) := by omega
          omega))]
    · rw [show sliceFrom d1 (st_off + i * 4) = .panicked from by
          simp only [sliceFrom]
          rw [if_neg hoff],
        show sliceFrom d2 (st_off + i * 4) = .panicked from by
          simp only [sliceFrom]
          rw [if_neg (hl ▸ hoff)]]
      rfl

/-- Parsing the vertex table of two slices agreeing on all
non-normal-index bytes yields `VRel`-related results. -/
theorem load_verts_go_rel (s1 s2 : List Nat) (hl : s1.length = s2.length) :
    ∀ count i,
      (∀ j r, i ≤ j → j < i + count → r < 3 →
        byteAt s1 (j * 4 + r) = byteAt s2 (j * 4 + r)) →
      VRel (load_verts_go s1 count i) (load_verts_go s2 count i) := by
  intro count
  induction count with
  | zero =>
    intro i _
    rw [load_verts_go_zero, load_verts_go_zero]
    exact VRel.ok [] [] VListRel.nil
  | succ n ih =>
    intro i hb
    rw [load_verts_go_succ, load_verts_go_succ]
    by_cases hoff : i * 4 ≤ s1.length
    · rw [show sliceFrom s1 (i * 4) = .ok (s1.drop (i * 4)) from by
          simp [sliceFrom, hoff],
        show sliceFrom s2 (i * 4) = .ok (s2.drop (i * 4)) from by
          simp [sliceFrom, hl ▸ hoff],
        mres_ok_bind, mres_ok_bind]
      simp only [Vertex.from_bytes, List.length_drop, hl]
      by_cases hshort : s2.length - i * 4 < 4
      · rw [if_pos hshort, if_pos hshort]
        exact VRel.fmtErr _
      · rw [if_neg hshort, if_neg hshort]
        rw [mres_ok_bind, mres_ok_bind]
        have hv : ∀ r, r < 3 → byteAt (s1.drop (i * 4)) r = byteAt (s2.drop (i * 4)) r := by
          intro r hr
          rw [byteAt_drop, byteAt_drop]
          exact hb i r le_rfl (by omega) hr
        have hrec := ih (i + 1) (fun j r h1 h2 hr => hb j r (by omega) (by omega) hr)
        generalize hg1 : load_verts_go s1 n (i + 1) = r1 at hrec ⊢
        generalize hg2 : load_verts_go s2 n (i + 1) = r2 at hrec ⊢
        cases hrec with
        | ok l1 l2 hrel =>
          rw [mres_ok_bind, mres_ok_bind]
          refine VRel.ok _ _ (VListRel.cons _ _ _ _ ?_ hrel)
          show [byteAt (s1.drop (i * 4)) 0, byteAt (s1.drop (i * 4)) 1,
            byteAt (s1.drop (i * 4)) 2] = _
          rw [hv 0 (by omega), hv 1 (by omega), hv 2 (by omega)]
        | fmtErr s =>
          rw [mres_fmtErr_bind, mres_fmtErr_bind]
          exact VRel.fmtErr s
        | panicked =>
          rw [mres_panicked_bind, mres_panicked_bind]
          exact VRel.panicked
    · rw [show sliceFrom s1 (i * 4) = .panicked from by
          simp only [sliceFrom]
          rw [if_neg hoff],
        show sliceFrom s2 (i * 4) = .panicked from by
          simp only [sliceFrom]
          rw [if_neg (hl ▸ hoff)]]
      exact VRel.panicked

/-- `VListRel` lists have equal length. -/
theorem VListRel.length_eq {l1 l2 : List Vertex} (h : VListRel l1 l2) :
    l1.length = l2.length := by
  induction h with
  | nil => rfl
  | cons a b t1 t2 hv ht ih => simp [ih]

/-- `vecIndex` on `VListRel`-related lists: both panic, or both return
vertices with equal `v` coordinates. -/
theorem vecIndex_vrel {l1 l2 : List Vertex} (h : VListRel l1 l2) :
    ∀ i, vecIndex l1 i = .panicked ∧ vecIndex l2 i = .panicked ∨
      ∃ a b, vecIndex l1 i = .ok a ∧ vecIndex l2 i = .ok b ∧ a.v = b.v := by
  induction h with
  | nil =>
    intro i
    left
    exact ⟨rfl, rfl⟩
  | cons a b t1 t2 hv ht ih =>
    intro i
    cases i with
    | zero =>
      right
      exact ⟨a, b, rfl, rfl, hv⟩
    | succ j => exact ih j

/-- Vertex expansion only reads the `v` coordinates, so `VListRel`-related
raw tables expand identically. -/
theorem expand_verts_congr {raw1 raw2 : List Vertex} (h : VListRel raw1 raw2)
    (frame : Frame) : ∀ tris, expand_verts raw1 frame tris =
      expand_verts raw2 frame tris := by
  intro tris
  induction tris with
  | nil => rfl
  | cons tri rest ih =>
    rw [expand_verts_cons, expand_verts_cons]
    rcases vecIndex_vrel h (tri.vertex.getD 0 0) with ⟨hp1, hp2⟩ | ⟨a0, b0, ha0, hb0, hv0⟩
    · rw [hp1, hp2]
      rfl
    rw [ha0, hb0, mres_ok_bind, mres_ok_bind]
    rcases vecIndex_vrel h (tri.vertex.getD 1 0) with ⟨hp1, hp2⟩ | ⟨a1, b1, ha1, hb1, hv1⟩
    · rw [hp1, hp2]
      rfl
    rw [ha1, hb1, mres_ok_bind, mres_ok_bind]
    rcases vecIndex_vrel h (tri.vertex.getD 2 0) with ⟨hp1, hp2⟩ | ⟨a2, b2, ha2, hb2, hv2⟩
    · rw [hp1, hp2]
      rfl
    rw [ha2, hb2, mres_ok_bind, mres_ok_bind, ih]
    rw [show decompress_vertex frame a0 = decompress_vertex frame b0 from by
        simp only [decompress_vertex, hv0],
      show decompress_vertex frame a1 = decompress_vertex frame b1 from by
        simp only [decompress_vertex, hv1],
      show decompress_vertex frame a2 = decompress_vertex frame b2 from by
        simp only [decompress_vertex, hv2]]

/-- Vertex reading and decompression ignores the normal-index bytes. -/
theorem read_verts_congr (s1 s2 : List Nat) (nxyz : Nat) (frame : Frame)
    (tris : List Triangle) (hl : s1.length = s2.length)
    (hb : ∀ j r, j < nxyz → r < 3 →
      byteAt s1 (j * 4 + r) = byteAt s2 (j * 4 + r)) :
    MD2.read_and_decompress_vertices s1 nxyz frame tris =
      MD2.read_and_decompress_vertices s2 nxyz frame tris := by
  have hrel := load_verts_go_rel s1 s2 hl nxyz 0
    (fun j r h1 h2 hr => hb j r (by omega) hr)
  simp only [MD2.read_and_decompress_vertices]
  generalize hg1 : load_verts_go s1 nxyz 0 = r1 at hrel ⊢
  generalize hg2 : load_verts_go s2 nxyz 0 = r2 at hrel ⊢
  cases hrel with
  | ok l1 l2 hrel =>
    rw [mres_ok_bind, mres_ok_bind]
    exact expand_verts_congr hrel frame tris
  | fmtErr s => rfl
  | panicked => rfl

/-- A normal-index byte position never falls inside a frame sub-header. -/
theorem normal_ne_subheader (nxyz fo kp k j i : Nat) (hj : j < nxyz)
    (hi : i < 40)
    (heq : fo + kp * (40 + 4 * nxyz) + 40 + 4 * j + 3 =
      fo + k * (40 + 4 * nxyz) + i) : False := by
  rcases Nat.lt_trichotomy kp k with h | h | h
  · have hf : kp * (40 + 4 * nxyz) + (40 + 4 * nxyz) ≤ k * (40 + 4 * nxyz) := by
      have h2 := Nat.mul_le_mul_right (40 + 4 * nxyz) (show kp + 1 ≤ k by omega)
      rw [Nat.succ_mul] at h2
      exact h2
    omega
  · subst h
    omega
  · have hf : k * (40 + 4 * nxyz) + (40 + 4 * nxyz) ≤ kp * (40 + 4 * nxyz) := by
      have h2 := Nat.mul_le_mul_right (40 + 4 * nxyz) (show k + 1 ≤ kp by omega)
      rw [Nat.succ_mul] at h2
      exact h2
    omega

/-- A normal-index byte position never coincides with one of the three
coordinate bytes of any vertex record. -/
theorem normal_ne_vbyte (nxyz fo kp k jp j r : Nat) (hjp : jp < nxyz)
    (hj : j < nxyz) (hr : r < 3)
    (heq : fo + kp * (40 + 4 * nxyz) + 40 + 4 * jp + 3 =
      fo + k * (40 + 4 * nxyz) + 40 + (j * 4 + r)) : False := by
  have h1 : kp * (40 + 4 * nxyz) = 4 * (kp * (10 + nxyz)) := by ring
  have h2 : k * (40 + 4 * nxyz) = 4 * (k * (10 + nxyz)) := by ring
  rw [h1, h2] at heq
  omega

/-- The frame loop of `load_animations` reads identical values from two
equal-length buffers that differ only at normal-index byte positions of
the frame section. -/
theorem load_anims_go_congr (d1 d2 : List Nat) (hl : d1.length = d2.length)
    (tris : List Triangle) (nxyz fo N : Nat)
    (hb : ∀ p, byteAt d1 p ≠ byteAt d2 p →
      ∃ kp, kp < N ∧ ∃ jp, jp < nxyz ∧
        p = fo + kp * (40 + 4 * nxyz) + 40 + 4 * jp + 3) :
    ∀ m, ∀ k off, off = fo + k * (40 + 4 * nxyz) → m + k = N →
      ∀ kfs anims last,
        load_anims_go d1 tris nxyz m off kfs anims last =
        load_anims_go d2 tris nxyz m off kfs anims last := by
  intro m
  induction m with
  | zero =>
    intro k off hoffdef hk kfs anims last
    rw [load_anims_go_zero, load_anims_go_zero]
  | succ n ih =>
    intro k off hoffdef hk kfs anims last
    have hsub : ∀ i, i < 40 → byteAt d1 (off + i) = byteAt d2 (off + i) := by
      intro i hi
      by_contra hne
      obtain ⟨kp, hkp, jp, hjp, hp⟩ := hb _ hne
      exact normal_ne_subheader nxyz fo kp k jp i hjp hi (by omega)
    have hvb : ∀ j r, j < nxyz → r < 3 →
        byteAt d1 (off + 40 + (j * 4 + r)) = byteAt d2 (off + 40 + (j * 4 + r)) := by
      intro j r hj hr
      by_contra hne
      obtain ⟨kp, hkp, jp, hjp, hp⟩ := hb _ hne
      exact normal_ne_vbyte nxyz fo kp k jp j r hjp hj hr (by omega)
    rw [load_anims_go_succ, load_anims_go_succ]
    by_cases hoff : off ≤ d1.length
    · rw [show sliceFrom d1 off = .ok (d1.drop off) from by
          simp [sliceFrom, hoff],
        show sliceFrom d2 off = .ok (d2.drop off) from by
          simp [sliceFrom, hl ▸ hoff],
        mres_ok_bind, mres_ok_bind]
      rw [← Frame_from_bytes_congr d1 d2 off hl hsub]
      cases Frame.from_bytes (d1.drop off) with
      | fmtErr s => rfl
      | panicked => rfl
      | ok frame =>
      rw [mres_ok_bind, mres_ok_bind]
      by_cases hoff2 : off + 40 ≤ d1.length
      · rw [show sliceFrom d1 (off + 40) = .ok (d1.drop (off + 40)) from by
            simp [sliceFrom, hoff2],
          show sliceFrom d2 (off + 40) = .ok (d2.drop (off + 40)) from by
            simp [sliceFrom, hl ▸ hoff2],
          mres_ok_bind, mres_ok_bind]
        rw [← read_verts_congr (d1.drop (off + 40)) (d2.drop (off + 40)) nxyz
          frame tris (by simp [hl])
          (fun j r hj hr => by
            rw [byteAt_drop, byteAt_drop]
            exact hvb j r hj hr)]
        cases MD2.read_and_decompress_vertices (d1.drop (off + 40)) nxyz frame tris with
        | fmtErr s => rfl
        | panicked => rfl
        | ok verts =>
        rw [mres_ok_bind, mres_ok_bind]
        have hoff3 : off + 40 + nxyz * 4 = fo + (k + 1) * (40 + 4 * nxyz) := by
          rw [hoffdef]
          ring
        cases last with
        | none =>
          show load_anims_go d1 tris nxyz n (off + 40 + nxyz * 4)
            (kfs ++ [verts]) anims (some frame.get_name) = _
          rw [ih (k + 1) (off + 40 + nxyz * 4) hoff3 (by omega)]
        | some prev =>
          show (if prev ≠ frame.get_name then
              load_anims_go d1 tris nxyz n (off + 40 + nxyz * 4)
                [verts] (anims ++ [⟨prev, kfs⟩]) (some frame.get_name)
            else load_anims_go d1 tris nxyz n (off + 40 + nxyz * 4)
              (kfs ++ [verts]) anims (some frame.get_name)) =
            (if prev ≠ frame.get_name then
              load_anims_go d2 tris nxyz n (off + 40 + nxyz * 4)
                [verts] (anims ++ [⟨prev, kfs⟩]) (some frame.get_name)
            else load_anims_go d2 tris nxyz n (off + 40 + nxyz * 4)
              (kfs ++ [verts]) anims (some frame.get_name))
          by_cases hp : prev ≠ frame.get_name
          · rw [if_pos hp, if_pos hp,
              ih (k + 1) (off + 40 + nxyz * 4) hoff3 (by omega)]
          · rw [if_neg hp, if_neg hp,
              ih (k + 1) (off + 40 + nxyz * 4) hoff3 (by omega)]
      · rw [show sliceFrom d1 (off + 40) = .panicked from by
            simp only [sliceFrom]
            rw [if_neg hoff2],
          show sliceFrom d2 (off + 40) = .panicked from by
            simp only [sliceFrom]
            rw [if_neg (hl ▸ hoff2)]]
        rfl
    · rw [show sliceFrom d1 off = .panicked from by
          simp only [sliceFrom]
          rw [if_neg hoff],
        show sliceFrom d2 off = .panicked from by
          simp only [sliceFrom]
          rw [if_neg (hl ▸ hoff)]]
      rfl

theorem load_triangles_congr (d1 d2 : List Nat) (hl : d1.length = d2.length)
    (h : Header)
    (hb : ∀ p, h.offset_tris.toNat ≤ p →
      p < h.offset_tris.toNat + 12 * h.num_tris.toNat →
      byteAt d1 p = byteAt d2 p) :
    MD2.load_triangles d1 h = MD2.load_triangles d2 h := by
  simp only [MD2.load_triangles, usizeOfI32]
  by_cases h1 : h.num_tris < 0
  · rw [if_pos h1, mres_fmtErr_bind, mres_fmtErr_bind]
  · rw [if_neg h1, mres_ok_bind, mres_ok_bind]
    by_cases h2 : h.offset_tris < 0
    · rw [if_pos h2, mres_fmtErr_bind, mres_fmtErr_bind]
    · rw [if_neg h2, mres_ok_bind, mres_ok_bind]
      exact load_triangles_go_congr d1 d2 hl _ _ 0
        (fun p hp1 hp2 => hb p (by omega) (by omega))

theorem load_texcoords_congr (d1 d2 : List Nat) (hl : d1.length = d2.length)
    (h : Header) (tris : List Triangle)
    (hb : ∀ p, h.offset_st.toNat ≤ p →
      p < h.offset_st.toNat + 4 * h.num_st.toNat →
      byteAt d1 p = byteAt d2 p) :
    MD2.load_texcoords d1 h tris = MD2.load_texcoords d2 h tris := by
  simp only [MD2.load_texcoords, usizeOfI32]
  by_cases h1 : h.num_st < 0
  · rw [if_pos h1, mres_fmtErr_bind, mres_fmtErr_bind]
  · rw [if_neg h1, mres_ok_bind, mres_ok_bind]
    by_cases h2 : h.offset_st < 0
    · rw [if_pos h2, mres_fmtErr_bind, mres_fmtErr_bind]
    · rw [if_neg h2, mres_ok_bind, mres_ok_bind]
      rw [load_st_go_congr d1 d2 hl _ _ 0
        (fun p hp1 hp2 => hb p (by omega) (by omega))]

theorem load_animations_congr (d1 d2 : List Nat) (hl : d1.length = d2.length)
    (h : Header) (tris : List Triangle)
    (hb : ∀ p, byteAt d1 p ≠ byteAt d2 p → normalBytePos h p) :
    MD2.load_animations d1 h tris = MD2.load_animations d2 h tris := by
  simp only [MD2.load_animations, usizeOfI32]
  by_cases h1 : h.num_xyz < 0
  · rw [if_pos h1, mres_fmtErr_bind, mres_fmtErr_bind]
  · rw [if_neg h1, mres_ok_bind, mres_ok_bind]
    by_cases h2 : h.offset_frames < 0
    · rw [if_pos h2, mres_fmtErr_bind, mres_fmtErr_bind]
    · rw [if_neg h2, mres_ok_bind, mres_ok_bind]
      exact load_anims_go_congr d1 d2 hl tris h.num_xyz.toNat
        h.offset_frames.toNat h.num_frames.toNat hb h.num_frames.toNat 0 _
        (by omega) (by omega) [] [] none

/-- C9, amended: two equal-length model buffers that differ only at
normal-index byte positions of vertex records — positions that lie outside
the header and outside the triangle and texcoord sections — decode to
identical results (same clips, keyframe vertices, UV table, and
errors/panics); the non-overlap proviso is forced because the format
allows sections to overlap, in which case the "normal" byte is also read
as section data. -/
theorem claim9_amended (d1 d2 : List Nat) (h : Header)
    (hlen : d1.length = d2.length)
    (hh : Header.from_bytes d1 = .ok h)
    (hdiff : ∀ p, byteAt d1 p ≠ byteAt d2 p → c9Allowed h p) :
    MD2.load d1 = MD2.load d2 := by
  have hh2 : Header.from_bytes d2 = .ok h := by
    rw [← Header_from_bytes_congr d1 d2 hlen (fun i hi => by
      by_contra hne
      have h68 := (hdiff i hne).2.1
      omega)]
    exact hh
  have htris : MD2.load_triangles d1 h = MD2.load_triangles d2 h :=
    load_triangles_congr d1 d2 hlen h (fun p hp1 hp2 => by
      by_contra hne
      exact (hdiff p hne).2.2.1 ⟨hp1, hp2⟩)
  simp only [MD2.load, hh, hh2, mres_ok_bind]
  rw [← htris]
  cases MD2.load_triangles d1 h with
  | fmtErr s => rfl
  | panicked => rfl
  | ok tris =>
  rw [mres_ok_bind, mres_ok_bind]
  rw [← load_texcoords_congr d1 d2 hlen h tris (fun p hp1 hp2 => by
    by_contra hne
    exact (hdiff p hne).2.2.2 ⟨hp1, hp2⟩)]
  cases MD2.load_texcoords d1 h tris with
  | fmtErr s => rfl
  | panicked => rfl
  | ok tc =>
  rw [mres_ok_bind, mres_ok_bind]
  rw [← load_animations_congr d1 d2 hlen h tris
    (fun p hne => (hdiff p hne).1)]

/-- C9, counterexample: two buffers differing ONLY in the normal-index
byte of their single vertex record (position 111) decode differently —
one to a model, the other to a panic — because the header also maps the
triangle section over that byte (the format permits overlapping sections),
refuting the claim for arbitrary buffers. -/
theorem claim9_counterexample :
    c9buf 1 = List.set (c9buf 0) 111 1 ∧
    byteAt (c9buf 0) 111 = 0 ∧ byteAt (c9buf 1) 111 = 1 ∧
    Header.from_bytes (c9buf 0) = .ok c9hdr ∧
    normalBytePos c9hdr 111 ∧
    (∃ m, MD2.load (c9buf 0) = .ok m) ∧
    MD2.load (c9buf 1) = .panicked ∧
    MD2.load (c9buf 0) ≠ MD2.load (c9buf 1) := by
  refine ⟨by decide, by decide, by decide, by decide,
    ⟨0, by decide, 0, by decide, by decide⟩, ⟨_, rfl⟩, by rfl, ?_⟩
  intro heq
  obtain ⟨m, hm⟩ : ∃ m, MD2.load (c9buf 0) = .ok m := ⟨_, rfl⟩
  rw [hm, show MD2.load (c9buf 1) = .panicked from by rfl] at heq
  cases heq

theorem byteAt_set_ne (l : List Nat) (i v p : Nat) (h : p ≠ i) :
    byteAt (l.set i v) p = byteAt l p := by
  induction l generalizing i p with
  | nil => rfl
  | cons a t ih =>
    cases i with
    | zero =>
      cases p with
      | zero => exact absurd rfl h
      | succ q => rfl
    | succ j =>
      cases p with
      | zero => rfl
      | succ q =>
        show byteAt (t.set j v) q = byteAt t q
        exact ih j q (fun hq => h (by rw [hq]))

/-- C9, witness for the amended theorem: flipping the normal-index byte of
a buffer whose sections do NOT overlap it leaves the decoded result
unchanged. -/
theorem claim9_witness :
    MD2.load c9wbuf = MD2.load (c9wbuf.set 111 1) := by
  refine claim9_amended c9wbuf (c9wbuf.set 111 1) c9whdr (by decide)
    (by decide) ?_
  intro p hne
  have hp : p = 111 := by
    by_contra hp
    exact hne (byteAt_set_ne c9wbuf 111 1 p hp).symm
  subst hp
  refine ⟨⟨0, by decide, 0, by decide, by decide⟩, by decide, by decide, by decide⟩
